import Mathlib

/-!
Verification development for the folder-creator core
(`streamlit_app.py` and its variant `streamlit_app 2.py`).

The Python helpers are shallowly embedded as Lean functions:

* strings are `String` (lists of unicode scalar values), byte payloads are
  `List Nat`;
* Unicode NFKC normalization (`unicodedata.normalize("NFKC", ·)`) is a call
  into the Python standard library, so it is kept abstract: every definition
  takes the normalization as an explicit function argument `nfkc`; concrete
  evaluations instantiate it with `id`, which agrees with real NFKC on the
  ASCII/Latin-1 strings involved;
* a zip archive is modelled as its list of entries in stored order; an
  output archive is the list of `(path, payload)` pairs in write order;
* `PurePosixPath` string normalization, `.name` and `.stem` are modelled on
  `List Char` following pathlib's pure-posix parsing (split on `/`,
  dropping empty and `"."` segments, keeping `".."`).
-/

/-! ### Python character predicates -/

/-- Code points accepted by Python's `str.isspace`, which is the set of
characters removed by `str.strip()` with no argument. -/
def pyWhitespace : List Nat :=
  [0x09, 0x0a, 0x0b, 0x0c, 0x0d, 0x1c, 0x1d, 0x1e, 0x1f, 0x20,
   0x85, 0xa0, 0x1680,
   0x2000, 0x2001, 0x2002, 0x2003, 0x2004, 0x2005, 0x2006, 0x2007,
   0x2008, 0x2009, 0x200a, 0x2028, 0x2029, 0x202f, 0x205f, 0x3000]

def pyIsSpace (c : Char) : Bool :=
  decide (c.toNat ∈ pyWhitespace)

/-- The characters of the Python string constant `FORBIDDEN` (source line 15:
backslash, forward slash, colon, asterisk, question mark, double quote,
angle brackets, pipe). -/
def FORBIDDEN : List Char := ['\\', '/', ':', '*', '?', '\"', '<', '>', '|']

/-- A character matched by `_forbidden_pattern` (source line 18): a member of
`FORBIDDEN` or an ASCII control code point 0x00-0x1F. -/
def isForbidden (c : Char) : Bool :=
  decide (c ∈ FORBIDDEN) || decide (c.toNat ≤ 0x1f)

/-- The per-character action of `_forbidden_pattern.sub("-", name)`. -/
def subChar (c : Char) : Char :=
  if isForbidden c then '-' else c

/-- A character removed by `str.rstrip(" .")`. -/
def isSpaceDot (c : Char) : Bool :=
  decide (c = ' ') || decide (c = '.')

/-- Python `str.rstrip`-style removal of trailing characters satisfying `p`. -/
def rstripList (p : Char → Bool) (l : List Char) : List Char :=
  (l.reverse.dropWhile p).reverse

/-- Python `str.strip`-style removal of leading and trailing characters
satisfying `p`. -/
def stripList (p : Char → Bool) (l : List Char) : List Char :=
  rstripList p (l.dropWhile p)

/-! ### sanitize_name (source lines 20-24) -/

/-- The character pipeline of `sanitize_name` before the empty-string
fallback: NFKC-normalize, strip whitespace, replace each forbidden character
by one hyphen, strip trailing spaces and periods. -/
def sanitizeCore (nfkc : String → String) (s : String) : List Char :=
  rstripList isSpaceDot ((stripList pyIsSpace (nfkc s).data).map subChar)

/-- `sanitize_name` from `streamlit_app.py` lines 20-24 (string input):
the pipeline result, or `"Untitled"` when it is empty. -/
def sanitize_name (nfkc : String → String) (s : String) : String :=
  if sanitizeCore nfkc s = [] then "Untitled" else String.mk (sanitizeCore nfkc s)

/-- Python's `str(name)` coercion used by `streamlit_app.py` line 21 on a
string-or-None input: `str(None)` is the four-character text `"None"`. -/
def pyStrRaw : Option String → String
  | none => "None"
  | some s => s

/-- `sanitize_name` of `streamlit_app.py` applied to a raw string-or-None
value (line 21 coerces with `str(name)`). -/
def sanitize_name_main (nfkc : String → String) (raw : Option String) : String :=
  sanitize_name nfkc (pyStrRaw raw)

/-- The coercion of `streamlit_app 2.py` lines 34-35: a None becomes the
empty string. -/
def orEmpty : Option String → String
  | none => ""
  | some s => s

/-- `sanitize_name` of `streamlit_app 2.py` (lines 33-39) applied to a raw
string-or-None value. -/
def sanitize_name_alt (nfkc : String → String) (raw : Option String) : String :=
  sanitize_name nfkc (orEmpty raw)

/-- Whether a string ends in a Python-whitespace character (the trailing
character that a second `str.strip()` pass would remove). -/
def lastIsPySpace (s : String) : Bool :=
  (s.data.getLast?.map pyIsSpace).getD false

/-! ### Decimal rendering of a natural number (Python `str(i)`) -/

def digitChar : Nat → Char
  | 0 => '0'
  | 1 => '1'
  | 2 => '2'
  | 3 => '3'
  | 4 => '4'
  | 5 => '5'
  | 6 => '6'
  | 7 => '7'
  | 8 => '8'
  | 9 => '9'
  | _ => '!'

/-- Fuelled most-significant-first decimal digit accumulator; the fuel `n`
itself always suffices since the value shrinks by a factor of 10 each step. -/
def decGo : Nat → Nat → List Char → List Char
  | 0, _, acc => acc
  | fuel + 1, n, acc => if n = 0 then acc else decGo fuel (n / 10) (digitChar (n % 10) :: acc)

/-- The characters of Python's `str(n)` for a natural number. -/
def decChars (n : Nat) : List Char :=
  if n = 0 then ['0'] else decGo n n []

/-! ### make_unique (source lines 26-33) -/

/-- The candidate probed at step `j` of the `make_unique` loop:
the base name itself, then `f"{base} ({i})"` for `i = 2, 3, ...`. -/
def cand (base : String) : Nat → String
  | 0 => base
  | k + 1 => String.mk (base.data ++ ' ' :: '(' :: decChars (k + 2) ++ [')'])

/-- The probing loop of `make_unique`.  The fuel bounds the number of probes;
`make_unique` passes `existing.length + 1`, which is proved sufficient
(`mkUniqueGo_not_mem`), so the fuel-exhausted branch is never taken. -/
def mkUniqueGo (base : String) (ex : List String) : Nat → Nat → String
  | 0, k => cand base k
  | fuel + 1, k => if cand base k ∈ ex then mkUniqueGo base ex fuel (k + 1) else cand base k

/-- `make_unique` (source lines 26-33).  The Python registry is a mutable
set; it is modelled as a list with membership as the set query, and the
function returns the chosen name together with the updated registry. -/
def make_unique (name : String) (ex : List String) : String × List String :=
  (mkUniqueGo name ex (ex.length + 1) 0, mkUniqueGo name ex (ex.length + 1) 0 :: ex)

/-- `make_unique` applied across a sequence, threading one registry. -/
def uniquifyGo : List String → List String → List String
  | _, [] => []
  | ex, n :: ns => (make_unique n ex).1 :: uniquifyGo (make_unique n ex).2 ns

/-- `make_unique` applied across a sequence starting from an empty registry. -/
def uniquifyList (ns : List String) : List String :=
  uniquifyGo [] ns

/-! ### PurePosixPath modelling -/

/-- Prepend a character to the first group of a split. -/
def consHead (c : Char) : List (List Char) → List (List Char)
  | [] => [[c]]
  | g :: gs => (c :: g) :: gs

/-- Split a character list at every occurrence of `sep` (Python
`str.split(sep)` semantics: `n` separators yield `n+1` groups). -/
def splitChar (sep : Char) : List Char → List (List Char)
  | [] => [[]]
  | c :: rest =>
    if c = sep then [] :: splitChar sep rest else consHead c (splitChar sep rest)

/-- The path components pathlib keeps: slash-separated groups with empty
groups and `"."` groups dropped (`".."` is kept, pathlib does not resolve
parent references). -/
def posixParts (l : List Char) : List (List Char) :=
  (splitChar '/' l).filter (fun g => decide (g ≠ [] ∧ g ≠ ['.']))

/-- The root of a pure posix path: `"//"` for exactly two leading slashes,
`"/"` for one or three-or-more, empty otherwise. -/
def posixRoot (l : List Char) : List Char :=
  match l with
  | ['/', '/'] => ['/', '/']
  | '/' :: '/' :: c :: _ => if c = '/' then ['/'] else ['/', '/']
  | '/' :: _ => ['/']
  | _ => []

/-- Join path components with `/`. -/
def joinSlash : List (List Char) → List Char
  | [] => []
  | [g] => g
  | g :: g2 :: gs => g ++ '/' :: joinSlash (g2 :: gs)

/-- `str(PurePosixPath(s))` on the character list of `s`: root plus joined
components, or `"."` when both are empty. -/
def posixStrL (l : List Char) : List Char :=
  if posixRoot l = [] ∧ posixParts l = [] then ['.']
  else posixRoot l ++ joinSlash (posixParts l)

/-- `PurePosixPath(s).name`: the last kept component, or empty. -/
def pypathName (s : String) : String :=
  match (posixParts s.data).getLast? with
  | some g => String.mk g
  | none => ""

/-- The index of the last `'.'` in a character list (Python `str.rfind`). -/
def rfindDot : List Char → Option Nat
  | [] => none
  | c :: rest =>
    match rfindDot rest with
    | some i => some (i + 1)
    | none => if c = '.' then some 0 else none

/-- Cut a basename at a found dot index, when that dot is neither the first
nor the last character. -/
def stemCut (b : String) : Option Nat → String
  | some i => if 0 < i ∧ i < b.data.length - 1 then String.mk (b.data.take i) else b
  | none => b

/-- `PurePosixPath(b).stem` for a basename `b`: cut at the last dot when that
dot is neither the first nor the last character, otherwise the whole name. -/
def pypathStem (b : String) : String :=
  stemCut b (rfindDot b.data)

/-- `str(PurePosixPath(f) / b)`: pathlib combines the kept components of both
arguments under `f`'s root (`b` is always a relative basename here). -/
def posixJoin (f b : String) : String :=
  if posixRoot f.data = [] ∧ posixParts f.data ++ posixParts b.data = [] then "."
  else String.mk (posixRoot f.data ++ joinSlash (posixParts f.data ++ posixParts b.data))

/-- The path segment of `s` before the first `/` (the top-level directory a
zip entry path lies in). -/
def headSeg (s : String) : String :=
  String.mk (s.data.takeWhile (fun c => decide (c ≠ '/')))

/-! ### Archive model and builders (source lines 35-73) -/

/-- One member of a zip archive: its stored path and its (decompressed)
payload bytes. -/
structure ZEntry where
  filename : String
  data : List Nat
deriving DecidableEq

/-- `ZipInfo.is_dir()`: the stored path ends with `/`. -/
def zipIsDir (e : ZEntry) : Bool :=
  decide (e.filename.data.getLast? = some '/')

/-- Membership test of `SYSTEM_DIR_PREFIXES` (source line 16): the single
entry is the macOS sidecar directory `__MACOSX/`. -/
def inSystemDir (e : ZEntry) : Bool :=
  decide (e.filename.data.take 9 = "__MACOSX/".data)

/-- `SYSTEM_BASENAMES` (source line 17). -/
def SYSTEM_BASENAMES : List String := [".DS_Store", "Thumbs.db"]

/-- `ZipFile.read(name)` reads through the name-to-info map, which is built
by iterating the entry list, so a duplicated name resolves to the **last**
entry bearing it. -/
def readByName (all : List ZEntry) (nm : String) : List Nat :=
  match (all.filter (fun e => decide (e.filename = nm))).getLast? with
  | some e => e.data
  | none => []

/-- The characters of the fixed placeholder filename `.keep`. -/
def keepChars : List Char := ['.', 'k', 'e', 'e', 'p']

/-- `_write_empty_folder` (source lines 35-38): the path of the marker entry
written for `folder` (the payload is empty). -/
def write_empty_folder (folder : String) : String :=
  String.mk
    ((if (posixStrL folder.data).getLast? = some '/'
      then posixStrL folder.data
      else posixStrL folder.data ++ ['/']) ++ keepChars)

/-- A surviving source-archive entry, as the spec's `SourceEntry` triple
(the payload is read on demand via `readByName`). -/
structure Candidate where
  filename : String
  basename : String
  stem : String
deriving DecidableEq

/-- The filter stage of `build_zip_from_filenames_zip` (source lines 57-65),
the spec's `listCandidates`: drop directory entries, entries under
`__MACOSX/`, and entries whose basename is a system artifact; keep stored
order. -/
def listCandidates : List ZEntry → List Candidate
  | [] => []
  | e :: es =>
    if zipIsDir e then listCandidates es
    else if inSystemDir e then listCandidates es
    else if pypathName e.filename ∈ SYSTEM_BASENAMES then listCandidates es
    else ⟨e.filename, pypathName e.filename, pypathStem (pypathName e.filename)⟩ :: listCandidates es

/-- Source line 66: `sanitize_name(stem) if do_sanitize else (stem.strip() or
"Untitled")`. -/
def candName (do_sanitize : Bool) (nfkc : String → String) (stem : String) : String :=
  if do_sanitize then sanitize_name nfkc stem
  else if stripList pyIsSpace stem.data = [] then "Untitled"
  else String.mk (stripList pyIsSpace stem.data)

/-- The entry-writing loop of `build_zip_from_filenames_zip` (source lines
57-72): for each surviving entry, write the folder marker and, when
`include_files` is set, the content entry. -/
def buildZipGo (all : List ZEntry) (inc san : Bool) (nfkc : String → String) :
    List ZEntry → List String → List (String × List Nat)
  | [], _ => []
  | e :: es, ex =>
    if zipIsDir e then buildZipGo all inc san nfkc es ex
    else if inSystemDir e then buildZipGo all inc san nfkc es ex
    else if pypathName e.filename ∈ SYSTEM_BASENAMES then buildZipGo all inc san nfkc es ex
    else
      (write_empty_folder (make_unique (candName san nfkc (pypathStem (pypathName e.filename))) ex).1,
        ([] : List Nat)) ::
      ((if inc then
          [(posixJoin (make_unique (candName san nfkc (pypathStem (pypathName e.filename))) ex).1
              (pypathName e.filename),
            readByName all e.filename)]
        else []) ++
        buildZipGo all inc san nfkc es (make_unique (candName san nfkc (pypathStem (pypathName e.filename))) ex).2)

/-- `build_zip_from_filenames_zip` (source lines 51-73), as the list of
`(path, payload)` entries written to the output archive. -/
def build_zip_from_filenames_zip (entries : List ZEntry) (include_files do_sanitize : Bool)
    (nfkc : String → String) : List (String × List Nat) :=
  buildZipGo entries include_files do_sanitize nfkc entries []

/-- The names surviving the `if not n: continue` test of
`build_zip_from_names` (source lines 44-46): drop None and the empty
string. -/
def truthyNames : List (Option String) → List String
  | [] => []
  | none :: ns => truthyNames ns
  | some s :: ns => if s = "" then truthyNames ns else s :: truthyNames ns

/-- The loop of `build_zip_from_names` (source lines 40-49). -/
def buildNamesGo : List (Option String) → List String → List (String × List Nat)
  | [], _ => []
  | none :: ns, ex => buildNamesGo ns ex
  | some s :: ns, ex =>
    if s = "" then buildNamesGo ns ex
    else (write_empty_folder (make_unique s ex).1, ([] : List Nat)) ::
      buildNamesGo ns (make_unique s ex).2

/-- `build_zip_from_names` (source lines 40-49), as the list of
`(path, payload)` entries written to the output archive. -/
def build_zip_from_names (names : List (Option String)) : List (String × List Nat) :=
  buildNamesGo names []

/-! ### Reference (spec-side) pipeline, for round-trip statements -/

/-- Spec-side re-run of `sanitize` followed by `makeUnique` (fresh registry)
over the candidate stems of a source archive; used to compare the builder's
directory names against the spec's round-trip property. -/
def specFolders (nfkc : String → String) (entries : List ZEntry) : List String :=
  uniquifyList ((listCandidates entries).map (fun c => sanitize_name nfkc c.stem))

/-- Reference layout of the output archive: one block per candidate, holding
the zero-byte `.keep` marker and (when requested) the content entry. -/
def outBlocks (inc : Bool) (all : List ZEntry) : List Candidate → List String → List (String × List Nat)
  | c :: cs, f :: fs =>
    (write_empty_folder f, ([] : List Nat)) ::
      ((if inc then [(posixJoin f c.basename, readByName all c.filename)] else []) ++
        outBlocks inc all cs fs)
  | _, _ => []

/-- Reference list of the entry paths of the output archive, with the marker
path spelled out as `folder ++ "/.keep"`. -/
def pathBlocks (inc : Bool) : List Candidate → List String → List String
  | c :: cs, f :: fs =>
    String.mk (f.data ++ '/' :: keepChars) ::
      ((if inc then [posixJoin f c.basename] else []) ++ pathBlocks inc cs fs)
  | _, _ => []


/-- Per-row facts available for every (candidate, folder) pair the zip
builder processes: the folder is nonempty and slash-free, the basename is
slash-free and not `"."`, the basename is not `".keep"` (the hypothesis of
the distinctness claim), and a row with an empty basename never has the
folder `"."`. -/
def RowH (q : Candidate × String) : Prop :=
  q.2 ≠ "" ∧ '/' ∉ q.2.data ∧ '/' ∉ q.1.basename.data ∧ q.1.basename ≠ "." ∧
  q.1.basename ≠ ".keep" ∧ (q.1.basename = "" → q.2 ≠ ".")

/-! ### Basic list lemmas -/

theorem mem_of_mem_dropWhile {p : Char → Bool} {l : List Char} {c : Char}
    (h : c ∈ l.dropWhile p) : c ∈ l :=
  List.Sublist.mem h (List.dropWhile_sublist p)

theorem dropWhile_eq_self_of_head {p : Char → Bool} {l : List Char}
    (h : ∀ c, l.head? = some c → p c = false) : l.dropWhile p = l := by
  cases l with
  | nil => rfl
  | cons a t =>
    have ha : p a = false := h a rfl
    simp [List.dropWhile_cons, ha]

theorem mem_of_mem_rstripList {p : Char → Bool} {l : List Char} {c : Char}
    (h : c ∈ rstripList p l) : c ∈ l := by
  unfold rstripList at h
  rw [List.mem_reverse] at h
  have := mem_of_mem_dropWhile h
  rwa [List.mem_reverse] at this

theorem rstripList_getLast?_not {p : Char → Bool} {l : List Char} {c : Char}
    (h : (rstripList p l).getLast? = some c) : p c = false := by
  unfold rstripList at h
  rw [List.getLast?_reverse] at h
  have hne : l.reverse.dropWhile p ≠ [] := by
    intro h0
    rw [h0] at h
    simp at h
  have hp := List.head_dropWhile_not p l.reverse hne
  rw [List.head?_eq_head hne, Option.some_inj] at h
  rw [← h]
  exact hp

theorem rstripList_head? {p : Char → Bool} {l : List Char}
    (h : rstripList p l ≠ []) : (rstripList p l).head? = l.head? := by
  have hsplit : (l.reverse.dropWhile p).reverse ++ (l.reverse.takeWhile p).reverse = l := by
    rw [← List.reverse_append, List.takeWhile_append_dropWhile, List.reverse_reverse]
  unfold rstripList at h ⊢
  conv_rhs => rw [← hsplit]
  rw [List.head?_append]
  cases hh : (l.reverse.dropWhile p).reverse.head? with
  | none => exact absurd (List.head?_eq_none_iff.mp hh) h
  | some a => rfl

theorem rstripList_eq_self {p : Char → Bool} {l : List Char}
    (h : ∀ c, l.getLast? = some c → p c = false) : rstripList p l = l := by
  unfold rstripList
  rw [dropWhile_eq_self_of_head, List.reverse_reverse]
  intro c hc
  rw [List.head?_reverse] at hc
  exact h c hc

theorem mem_of_mem_stripList {p : Char → Bool} {l : List Char} {c : Char}
    (h : c ∈ stripList p l) : c ∈ l :=
  mem_of_mem_dropWhile (mem_of_mem_rstripList h)

theorem stripList_head?_not {p : Char → Bool} {l : List Char} {c : Char}
    (h : (stripList p l).head? = some c) : p c = false := by
  unfold stripList at h
  have hne : stripList p l ≠ [] := by
    unfold stripList
    intro h0
    rw [h0] at h
    simp at h
  unfold stripList at hne
  rw [rstripList_head? hne] at h
  have hne2 : l.dropWhile p ≠ [] := by
    intro h0
    rw [h0] at h
    simp at h
  have hp := List.head_dropWhile_not p l hne2
  rw [List.head?_eq_head hne2, Option.some_inj] at h
  rw [← h]
  exact hp

theorem stripList_getLast?_not {p : Char → Bool} {l : List Char} {c : Char}
    (h : (stripList p l).getLast? = some c) : p c = false :=
  rstripList_getLast?_not h

theorem stripList_eq_self {p : Char → Bool} {l : List Char}
    (hh : ∀ c, l.head? = some c → p c = false)
    (hl : ∀ c, l.getLast? = some c → p c = false) : stripList p l = l := by
  unfold stripList
  rw [dropWhile_eq_self_of_head hh, rstripList_eq_self hl]

theorem stripList_head?_or {p : Char → Bool} {l : List Char}
    (h : stripList p l ≠ []) :
    ∃ c, l.head? = some c ∧ (p c = true ∨ (stripList p l).head? = some c) := by
  cases l with
  | nil => exact absurd rfl h
  | cons a t =>
    by_cases hp : p a = true
    · exact ⟨a, rfl, Or.inl hp⟩
    · refine ⟨a, rfl, Or.inr ?_⟩
      have hd : (a :: t).dropWhile p = a :: t := by
        rw [List.dropWhile_cons, if_neg (by simp [hp])]
      unfold stripList at h ⊢
      rw [hd] at h ⊢
      rw [rstripList_head? h]
      rfl

/-! ### Substitution lemmas -/

theorem isForbidden_subChar (c : Char) : isForbidden (subChar c) = false := by
  unfold subChar
  by_cases h : isForbidden c = true
  · rw [if_pos h]
    decide
  · rw [if_neg h]
    exact Bool.eq_false_iff.mpr h

theorem pyIsSpace_subChar {c : Char} (h : pyIsSpace c = false) : pyIsSpace (subChar c) = false := by
  unfold subChar
  by_cases hf : isForbidden c = true
  · rw [if_pos hf]
    decide
  · rw [if_neg hf]
    exact h

theorem map_subChar_eq_self {l : List Char} (h : ∀ c ∈ l, isForbidden c = false) :
    l.map subChar = l := by
  induction l with
  | nil => rfl
  | cons a t ih =>
    have ha : isForbidden a = false := h a (List.mem_cons_self a t)
    have : subChar a = a := by
      unfold subChar
      rw [if_neg (by rw [ha]; exact Bool.false_ne_true)]
    rw [List.map_cons, this, ih (fun c hc => h c (List.mem_cons_of_mem a hc))]

/-! ### Invariants of sanitize_name -/

theorem sanitize_name_ne_empty (nfkc : String → String) (s : String) :
    sanitize_name nfkc s ≠ "" := by
  unfold sanitize_name
  split
  · decide
  · intro h
    have : sanitizeCore nfkc s = ("" : String).data := congrArg String.data h
    simp at this
    simp_all

theorem sanitize_name_no_forbidden (nfkc : String → String) (s : String) :
    ∀ c ∈ (sanitize_name nfkc s).data, isForbidden c = false := by
  unfold sanitize_name
  split
  · decide
  · intro c hc
    have hc' : c ∈ (stripList pyIsSpace (nfkc s).data).map subChar :=
      mem_of_mem_rstripList hc
    rw [List.mem_map] at hc'
    obtain ⟨d, _, hd⟩ := hc'
    rw [← hd]
    exact isForbidden_subChar d

theorem sanitize_name_getLast?_not (nfkc : String → String) (s : String) :
    ∀ c, (sanitize_name nfkc s).data.getLast? = some c → isSpaceDot c = false := by
  unfold sanitize_name
  split
  · decide
  · intro c hc
    exact rstripList_getLast?_not hc

theorem sanitize_name_head?_not (nfkc : String → String) (s : String) :
    ∀ c, (sanitize_name nfkc s).data.head? = some c → pyIsSpace c = false := by
  unfold sanitize_name
  split
  · decide
  · next hne =>
    intro c hc
    have hne' : sanitizeCore nfkc s ≠ [] := hne
    unfold sanitizeCore at hne' hc
    rw [rstripList_head? hne'] at hc
    cases hstrip : stripList pyIsSpace (nfkc s).data with
    | nil =>
      rw [hstrip] at hc
      simp at hc
    | cons a t =>
      rw [hstrip] at hc
      rw [List.map_cons] at hc
      simp only [List.head?_cons, Option.some_inj] at hc
      have ha : pyIsSpace a = false := stripList_head?_not (by rw [hstrip]; rfl)
      rw [← hc]
      exact pyIsSpace_subChar ha

theorem sanitize_name_no_slash (nfkc : String → String) (s : String) :
    '/' ∉ (sanitize_name nfkc s).data := by
  intro h
  have := sanitize_name_no_forbidden nfkc s '/' h
  simp [isForbidden, FORBIDDEN] at this

/-! ### Decimal rendering lemmas -/

theorem decGo_eq : ∀ (fuel n : Nat), n ≤ fuel → ∀ acc : List Char,
    decGo fuel n acc = ((Nat.digits 10 n).reverse.map digitChar) ++ acc := by
  intro fuel
  induction fuel with
  | zero =>
    intro n hn acc
    have : n = 0 := by omega
    subst this
    simp [decGo]
  | succ fuel ih =>
    intro n hn acc
    by_cases h0 : n = 0
    · subst h0
      simp [decGo]
    · have hlt : n / 10 ≤ fuel := by
        have := Nat.div_lt_self (Nat.pos_of_ne_zero h0) (by norm_num : 1 < 10)
        omega
      unfold decGo
      rw [if_neg h0, ih _ hlt]
      rw [Nat.digits_def' (by norm_num : 1 < 10) (Nat.pos_of_ne_zero h0)]
      simp [List.append_assoc]

theorem decChars_pos_eq {n : Nat} (h : n ≠ 0) :
    decChars n = (Nat.digits 10 n).reverse.map digitChar := by
  unfold decChars
  rw [if_neg h, decGo_eq n n le_rfl]
  simp

theorem decChars_ne_nil (n : Nat) : decChars n ≠ [] := by
  by_cases h : n = 0
  · subst h
    decide
  · rw [decChars_pos_eq h]
    simp [Nat.digits_ne_nil_iff_ne_zero, h]

theorem map_digitChar_inj : ∀ {as bs : List Nat}, (∀ d ∈ as, d < 10) → (∀ d ∈ bs, d < 10) →
    as.map digitChar = bs.map digitChar → as = bs := by
  intro as
  induction as with
  | nil =>
    intro bs _ _ h
    cases bs with
    | nil => rfl
    | cons b u => simp at h
  | cons a t ih =>
    intro bs ha hb h
    cases bs with
    | nil => simp at h
    | cons b u =>
      simp only [List.map_cons, List.cons.injEq] at h
      obtain ⟨h1, h2⟩ := h
      have hab : a = b := by
        have hd : ∀ d < 10, ∀ e < 10, digitChar d = digitChar e → d = e := by decide
        exact hd a (ha a (List.mem_cons_self a t)) b (hb b (List.mem_cons_self b u)) h1
      subst hab
      rw [ih (fun d hd => ha d (List.mem_cons_of_mem a hd))
            (fun d hd => hb d (List.mem_cons_of_mem a hd)) h2]

theorem digits_of_map_eq_zero {m : Nat} (hm : m ≠ 0)
    (h : (Nat.digits 10 m).reverse.map digitChar = ['0']) : False := by
  have hb : ∀ d ∈ (Nat.digits 10 m).reverse, d < 10 := by
    intro d hd
    rw [List.mem_reverse] at hd
    exact Nat.digits_lt_base (by norm_num) hd
  have h0 : ((0 : Nat) :: []).map digitChar = ['0'] := by decide
  have := map_digitChar_inj hb (by intro d hd; simp at hd; omega) (h.trans h0.symm)
  have hrev : Nat.digits 10 m = [0] := by
    have := congrArg List.reverse this
    simpa using this
  have := Nat.ofDigits_digits 10 m
  rw [hrev] at this
  simp [Nat.ofDigits] at this
  exact hm this.symm

theorem decChars_inj : Function.Injective decChars := by
  intro n m h
  by_cases hn : n = 0 <;> by_cases hm : m = 0
  · omega
  · exfalso
    subst hn
    have h0 : decChars 0 = ['0'] := by decide
    rw [h0, decChars_pos_eq hm] at h
    exact digits_of_map_eq_zero hm h.symm
  · exfalso
    subst hm
    have h0 : decChars 0 = ['0'] := by decide
    rw [h0, decChars_pos_eq hn] at h
    exact digits_of_map_eq_zero hn h
  · rw [decChars_pos_eq hn, decChars_pos_eq hm] at h
    have hbn : ∀ d ∈ (Nat.digits 10 n).reverse, d < 10 := by
      intro d hd
      rw [List.mem_reverse] at hd
      exact Nat.digits_lt_base (by norm_num) hd
    have hbm : ∀ d ∈ (Nat.digits 10 m).reverse, d < 10 := by
      intro d hd
      rw [List.mem_reverse] at hd
      exact Nat.digits_lt_base (by norm_num) hd
    have := map_digitChar_inj hbn hbm h
    have hdig : Nat.digits 10 n = Nat.digits 10 m := by
      have := congrArg List.reverse this
      simpa using this
    have h1 := Nat.ofDigits_digits 10 n
    have h2 := Nat.ofDigits_digits 10 m
    rw [hdig] at h1
    rw [h2] at h1
    exact h1.symm

theorem decChars_mem_digits {n : Nat} : ∀ c ∈ decChars n,
    c ∈ ['0', '1', '2', '3', '4', '5', '6', '7', '8', '9'] := by
  by_cases h : n = 0
  · subst h
    decide
  · rw [decChars_pos_eq h]
    intro c hc
    rw [List.mem_map] at hc
    obtain ⟨d, hd, rfl⟩ := hc
    rw [List.mem_reverse] at hd
    have hd10 : d < 10 := Nat.digits_lt_base (by norm_num) hd
    have : ∀ e < 10, digitChar e ∈ ['0', '1', '2', '3', '4', '5', '6', '7', '8', '9'] := by decide
    exact this d hd10

/-! ### cand lemmas -/

theorem cand_succ_data (base : String) (k : Nat) :
    (cand base (k + 1)).data = base.data ++ ' ' :: '(' :: decChars (k + 2) ++ [')'] := rfl

theorem cand_injective (base : String) : Function.Injective (cand base) := by
  intro j k h
  match j, k with
  | 0, 0 => rfl
  | 0, k + 1 =>
    exfalso
    have hd := congrArg String.data h
    rw [show cand base 0 = base from rfl, cand_succ_data] at hd
    have hlen := congrArg List.length hd
    simp only [List.length_append, List.length_cons, List.length_nil] at hlen
    omega
  | j + 1, 0 =>
    exfalso
    have hd := congrArg String.data h
    rw [show cand base 0 = base from rfl, cand_succ_data] at hd
    have hlen := congrArg List.length hd
    simp only [List.length_append, List.length_cons, List.length_nil] at hlen
    omega
  | j + 1, k + 1 =>
    have hd := congrArg String.data h
    rw [cand_succ_data, cand_succ_data] at hd
    have h3 := List.append_cancel_right hd
    have h4 : ' ' :: '(' :: decChars (j + 2) = ' ' :: '(' :: decChars (k + 2) :=
      List.append_cancel_left h3
    injection h4 with _ h5
    injection h5 with _ h6
    have := decChars_inj h6
    omega

theorem cand_ne_empty {base : String} (h : base ≠ "") (j : Nat) : cand base j ≠ "" := by
  cases j with
  | zero => exact h
  | succ k =>
    intro he
    have hd := congrArg String.data he
    rw [cand_succ_data] at hd
    have : (("" : String).data) = ([] : List Char) := rfl
    rw [this] at hd
    simp at hd

theorem cand_no_slash {base : String} (h : '/' ∉ base.data) (j : Nat) :
    '/' ∉ (cand base j).data := by
  cases j with
  | zero => exact h
  | succ k =>
    rw [cand_succ_data]
    intro hmem
    rcases List.mem_append.mp hmem with h12 | h6
    · rcases List.mem_append.mp h12 with h1 | h2
      · exact h h1
      · rcases List.mem_cons.mp h2 with he | h3
        · exact absurd he (by decide)
        · rcases List.mem_cons.mp h3 with he | h4
          · exact absurd he (by decide)
          · have := decChars_mem_digits '/' h4
            simp at this
    · simp at h6

theorem cand_head? {base : String} (h : base ≠ "") (j : Nat) :
    (cand base j).data.head? = base.data.head? := by
  cases j with
  | zero => rfl
  | succ k =>
    cases hb : base.data with
    | nil =>
      exfalso
      have : base = "" := String.ext hb
      exact h this
    | cons a t =>
      rw [cand_succ_data]
      simp [List.head?_append, hb]

theorem cand_getLast?_succ (base : String) (k : Nat) :
    (cand base (k + 1)).data.getLast? = some ')' := by
  rw [cand_succ_data]
  have : base.data ++ ' ' :: '(' :: decChars (k + 2) ++ [')'] =
      (base.data ++ ' ' :: '(' :: decChars (k + 2)) ++ [')'] := by
    simp [List.append_assoc]
  rw [this, List.getLast?_concat]

theorem cand_eq_dot_iff {base : String} {j : Nat} (h : cand base j = ".") :
    j = 0 ∧ base = "." := by
  cases j with
  | zero => exact ⟨rfl, h⟩
  | succ k =>
    exfalso
    have := cand_getLast?_succ base k
    rw [h] at this
    simp at this

/-! ### make_unique lemmas -/

theorem mkUniqueGo_is_cand (base : String) (ex : List String) :
    ∀ fuel k, ∃ j, mkUniqueGo base ex fuel k = cand base j := by
  intro fuel
  induction fuel with
  | zero => exact fun k => ⟨k, rfl⟩
  | succ fuel ih =>
    intro k
    unfold mkUniqueGo
    by_cases hc : cand base k ∈ ex
    · rw [if_pos hc]
      exact ih (k + 1)
    · rw [if_neg hc]
      exact ⟨k, rfl⟩

theorem mkUniqueGo_mem_all {base : String} {ex : List String} :
    ∀ fuel k, mkUniqueGo base ex fuel k ∈ ex → ∀ i, i < fuel → cand base (k + i) ∈ ex := by
  intro fuel
  induction fuel with
  | zero =>
    intro k _ i hi
    omega
  | succ fuel ih =>
    intro k h i hi
    unfold mkUniqueGo at h
    by_cases hc : cand base k ∈ ex
    · rw [if_pos hc] at h
      cases i with
      | zero => simpa using hc
      | succ i' =>
        have := ih (k + 1) h i' (by omega)
        have harith : k + (i' + 1) = k + 1 + i' := by omega
        rwa [harith]
    · rw [if_neg hc] at h
      exact absurd h hc

theorem make_unique_fst_not_mem (name : String) (ex : List String) :
    (make_unique name ex).1 ∉ ex := by
  intro h
  have hall := mkUniqueGo_mem_all (ex.length + 1) 0 h
  have hnd : ((List.range (ex.length + 1)).map (cand name)).Nodup :=
    (List.nodup_range _).map (cand_injective name)
  have hsub : ∀ x ∈ (List.range (ex.length + 1)).map (cand name), x ∈ ex := by
    intro x hx
    rw [List.mem_map] at hx
    obtain ⟨i, hi, rfl⟩ := hx
    rw [List.mem_range] at hi
    have := hall i hi
    simpa using this
  have h1 : ((List.range (ex.length + 1)).map (cand name)).toFinset.card = ex.length + 1 := by
    rw [List.toFinset_card_of_nodup hnd]
    simp
  have h2 : ((List.range (ex.length + 1)).map (cand name)).toFinset ⊆ ex.toFinset := by
    intro x hx
    rw [List.mem_toFinset] at hx ⊢
    exact hsub x hx
  have h3 := Finset.card_le_card h2
  have h4 := List.toFinset_card_le ex
  omega

theorem make_unique_fst_is_cand (name : String) (ex : List String) :
    ∃ j, (make_unique name ex).1 = cand name j :=
  mkUniqueGo_is_cand name ex (ex.length + 1) 0

theorem make_unique_snd (name : String) (ex : List String) :
    (make_unique name ex).2 = (make_unique name ex).1 :: ex := rfl

theorem make_unique_of_not_mem {name : String} {ex : List String} (h : name ∉ ex) :
    make_unique name ex = (name, name :: ex) := by
  have h0 : cand name 0 ∉ ex := h
  unfold make_unique mkUniqueGo
  rw [if_neg h0]
  exact rfl

/-! ### uniquify lemmas -/

theorem uniquifyGo_nodup_and : ∀ (ns ex : List String),
    (uniquifyGo ex ns).Nodup ∧ ∀ f ∈ uniquifyGo ex ns, f ∉ ex := by
  intro ns
  induction ns with
  | nil => simp [uniquifyGo]
  | cons n t ih =>
    intro ex
    obtain ⟨ih1, ih2⟩ := ih (make_unique n ex).2
    constructor
    · rw [show uniquifyGo ex (n :: t) =
          (make_unique n ex).1 :: uniquifyGo (make_unique n ex).2 t from rfl, List.nodup_cons]
      refine ⟨?_, ih1⟩
      intro hmem
      have := ih2 _ hmem
      rw [make_unique_snd] at this
      exact this (List.mem_cons_self _ _)
    · intro f hf
      rw [show uniquifyGo ex (n :: t) =
          (make_unique n ex).1 :: uniquifyGo (make_unique n ex).2 t from rfl] at hf
      rcases List.mem_cons.mp hf with h1 | h2
      · rw [h1]
        exact make_unique_fst_not_mem n ex
      · have := ih2 f h2
        rw [make_unique_snd] at this
        intro hfex
        exact this (List.mem_cons_of_mem _ hfex)

theorem uniquifyGo_nodup (ns ex : List String) : (uniquifyGo ex ns).Nodup :=
  (uniquifyGo_nodup_and ns ex).1

theorem uniquifyGo_length : ∀ (ns ex : List String), (uniquifyGo ex ns).length = ns.length := by
  intro ns
  induction ns with
  | nil => intro ex; rfl
  | cons n t ih =>
    intro ex
    rw [show uniquifyGo ex (n :: t) =
        (make_unique n ex).1 :: uniquifyGo (make_unique n ex).2 t from rfl]
    simp [ih]

theorem uniquifyGo_append : ∀ (l1 l2 ex : List String),
    uniquifyGo ex (l1 ++ l2) =
      uniquifyGo ex l1 ++ uniquifyGo ((uniquifyGo ex l1).reverse ++ ex) l2 := by
  intro l1
  induction l1 with
  | nil =>
    intro l2 ex
    simp [uniquifyGo]
  | cons n t ih =>
    intro l2 ex
    rw [List.cons_append]
    rw [show uniquifyGo ex (n :: (t ++ l2)) =
        (make_unique n ex).1 :: uniquifyGo (make_unique n ex).2 (t ++ l2) from rfl]
    rw [ih]
    rw [show uniquifyGo ex (n :: t) =
        (make_unique n ex).1 :: uniquifyGo (make_unique n ex).2 t from rfl]
    rw [List.cons_append]
    congr 2
    rw [make_unique_snd]
    simp [List.append_assoc]

theorem uniquifyGo_mem_is_cand : ∀ (ns ex : List String) (f : String),
    f ∈ uniquifyGo ex ns → ∃ n j, n ∈ ns ∧ f = cand n j := by
  intro ns
  induction ns with
  | nil => simp [uniquifyGo]
  | cons n t ih =>
    intro ex f hf
    rw [show uniquifyGo ex (n :: t) =
        (make_unique n ex).1 :: uniquifyGo (make_unique n ex).2 t from rfl] at hf
    rcases List.mem_cons.mp hf with h1 | h2
    · obtain ⟨j, hj⟩ := make_unique_fst_is_cand n ex
      exact ⟨n, j, List.mem_cons_self n t, h1.trans hj⟩
    · obtain ⟨m, j, hm, hj⟩ := ih _ f h2
      exact ⟨m, j, List.mem_cons_of_mem n hm, hj⟩

/-! ### Path lemmas -/

theorem String_mk_inj {a b : List Char} (h : String.mk a = String.mk b) : a = b := by
  injection h

theorem getLast?_mem {α : Type} {l : List α} {a : α} (h : l.getLast? = some a) : a ∈ l := by
  rw [List.getLast?_eq_some_iff] at h
  obtain ⟨ys, rfl⟩ := h
  simp

theorem splitChar_no_sep (sep : Char) : ∀ (l : List Char), ∀ g ∈ splitChar sep l, sep ∉ g := by
  intro l
  induction l with
  | nil =>
    intro g hg
    simp [splitChar] at hg
    simp [hg]
  | cons c rest ih =>
    intro g hg
    simp only [splitChar] at hg
    by_cases hc : c = sep
    · rw [if_pos hc] at hg
      rcases List.mem_cons.mp hg with h1 | h2
      · simp [h1]
      · exact ih g h2
    · rw [if_neg hc] at hg
      cases hs : splitChar sep rest with
      | nil =>
        rw [hs] at hg
        simp only [consHead] at hg
        rcases List.mem_cons.mp hg with h1 | h2
        · subst h1
          intro hm
          rcases List.mem_cons.mp hm with he | h0
          · exact hc he.symm
          · simp at h0
        · simp at h2
      | cons g0 gs =>
        rw [hs] at hg
        simp only [consHead] at hg
        rcases List.mem_cons.mp hg with h1 | h2
        · subst h1
          intro hm
          rcases List.mem_cons.mp hm with he | hm2
          · exact hc he.symm
          · exact ih g0 (hs ▸ List.mem_cons_self g0 gs) hm2
        · exact ih g (hs ▸ List.mem_cons_of_mem g0 h2)

theorem splitChar_of_not_mem {sep : Char} : ∀ {l : List Char}, sep ∉ l → splitChar sep l = [l] := by
  intro l
  induction l with
  | nil => intro _; rfl
  | cons c rest ih =>
    intro h
    have hc : c ≠ sep := fun he => h (he ▸ List.mem_cons_self c rest)
    have hrest : sep ∉ rest := fun hm => h (List.mem_cons_of_mem c hm)
    simp only [splitChar]
    rw [if_neg hc, ih hrest]
    simp [consHead]

theorem posixParts_mem {l : List Char} : ∀ g ∈ posixParts l, g ≠ [] ∧ g ≠ ['.'] ∧ '/' ∉ g := by
  intro g hg
  unfold posixParts at hg
  rw [List.mem_filter] at hg
  obtain ⟨hmem, hpred⟩ := hg
  rw [decide_eq_true_iff] at hpred
  exact ⟨hpred.1, hpred.2, splitChar_no_sep '/' l g hmem⟩

theorem posixParts_slashfree {l : List Char} (h : '/' ∉ l) :
    posixParts l = if l = [] ∨ l = ['.'] then [] else [l] := by
  unfold posixParts
  rw [splitChar_of_not_mem h]
  by_cases h1 : l = []
  · subst h1
    simp
  · by_cases h2 : l = ['.']
    · subst h2
      simp
    · rw [if_neg (by simp [h1, h2])]
      simp [h1, h2]

theorem posixRoot_of_no_slash {l : List Char} (h : '/' ∉ l) : posixRoot l = [] := by
  unfold posixRoot
  split
  · simp_all
  · simp_all
  · simp_all
  · rfl

theorem posixStrL_slashfree {l : List Char} (hne : l ≠ []) (h : '/' ∉ l) : posixStrL l = l := by
  unfold posixStrL
  by_cases hdot : l = ['.']
  · have hParts : posixParts l = [] := by
      rw [posixParts_slashfree h, if_pos (Or.inr hdot)]
    rw [posixRoot_of_no_slash h, hParts, if_pos ⟨rfl, rfl⟩]
    exact hdot.symm
  · have hParts : posixParts l = [l] := by
      rw [posixParts_slashfree h, if_neg (by push_neg; exact ⟨hne, hdot⟩)]
    rw [posixRoot_of_no_slash h, hParts, if_neg (by simp)]
    simp [joinSlash]

theorem write_empty_folder_eq {folder : String} (hne : folder ≠ "") (h : '/' ∉ folder.data) :
    write_empty_folder folder = String.mk (folder.data ++ '/' :: keepChars) := by
  have hdata : folder.data ≠ [] := fun h0 => hne (String.ext h0)
  unfold write_empty_folder
  rw [posixStrL_slashfree hdata h]
  rw [if_neg (fun hl => h (getLast?_mem hl))]
  congr 1
  simp

theorem string_eq_dot_iff {f : String} : f = "." ↔ f.data = ['.'] := by
  constructor
  · intro h
    rw [h]
  · intro h
    exact String.ext h

theorem posixJoin_eq (f b : String) (hf : f ≠ "") (hfs : '/' ∉ f.data) (hbs : '/' ∉ b.data) :
    posixJoin f b =
      if b = "" ∨ b = "." then (if f = "." then "." else f)
      else (if f = "." then b else String.mk (f.data ++ '/' :: b.data)) := by
  have hfd : f.data ≠ [] := fun h0 => hf (String.ext h0)
  by_cases hfdot : f = "."
  · have hPF : posixParts f.data = [] := by
      rw [posixParts_slashfree hfs, if_pos (Or.inr (string_eq_dot_iff.mp hfdot))]
    by_cases hbdeg : b = "" ∨ b = "."
    · have hPB : posixParts b.data = [] := by
        rw [posixParts_slashfree hbs]
        rcases hbdeg with h | h
        · rw [if_pos (Or.inl (by rw [h]))]
        · rw [if_pos (Or.inr (string_eq_dot_iff.mp h))]
      unfold posixJoin
      rw [posixRoot_of_no_slash hfs, hPF, hPB, if_pos ⟨rfl, rfl⟩, if_pos hbdeg, if_pos hfdot]
    · have hPB : posixParts b.data = [b.data] := by
        rw [posixParts_slashfree hbs]
        rw [if_neg]
        push_neg
        push_neg at hbdeg
        exact ⟨fun h0 => hbdeg.1 (String.ext h0), fun h0 => hbdeg.2 (string_eq_dot_iff.mpr h0)⟩
      unfold posixJoin
      rw [posixRoot_of_no_slash hfs, hPF, hPB, if_neg (by simp), if_neg hbdeg, if_pos hfdot]
      simp [joinSlash]
  · have hPF : posixParts f.data = [f.data] := by
      rw [posixParts_slashfree hfs]
      rw [if_neg]
      push_neg
      exact ⟨hfd, fun h0 => hfdot (string_eq_dot_iff.mpr h0)⟩
    by_cases hbdeg : b = "" ∨ b = "."
    · have hPB : posixParts b.data = [] := by
        rw [posixParts_slashfree hbs]
        rcases hbdeg with h | h
        · rw [if_pos (Or.inl (by rw [h]))]
        · rw [if_pos (Or.inr (string_eq_dot_iff.mp h))]
      unfold posixJoin
      rw [posixRoot_of_no_slash hfs, hPF, hPB, if_neg (by simp), if_pos hbdeg, if_neg hfdot]
      simp [joinSlash]
    · have hPB : posixParts b.data = [b.data] := by
        rw [posixParts_slashfree hbs]
        rw [if_neg]
        push_neg
        push_neg at hbdeg
        exact ⟨fun h0 => hbdeg.1 (String.ext h0), fun h0 => hbdeg.2 (string_eq_dot_iff.mpr h0)⟩
      unfold posixJoin
      rw [posixRoot_of_no_slash hfs, hPF, hPB, if_neg (by simp), if_neg hbdeg, if_neg hfdot]
      simp [joinSlash]

theorem pypathName_no_slash (s : String) : '/' ∉ (pypathName s).data := by
  unfold pypathName
  cases hlast : (posixParts s.data).getLast? with
  | none => simp
  | some g =>
    have := posixParts_mem g (getLast?_mem hlast)
    exact this.2.2

theorem pypathName_ne_dot (s : String) : pypathName s ≠ "." := by
  unfold pypathName
  cases hlast : (posixParts s.data).getLast? with
  | none =>
    intro h
    have := congrArg String.data h
    simp at this
  | some g =>
    have hg := posixParts_mem g (getLast?_mem hlast)
    intro h
    have := congrArg String.data h
    exact hg.2.1 this

theorem pypathStem_no_slash {b : String} (h : '/' ∉ b.data) : '/' ∉ (pypathStem b).data := by
  unfold pypathStem
  cases hr : rfindDot b.data with
  | none => exact h
  | some i =>
    simp only [stemCut]
    by_cases hcond : 0 < i ∧ i < b.data.length - 1
    · rw [if_pos hcond]
      intro hmem
      exact h (List.Sublist.mem hmem (List.take_sublist i b.data))
    · rw [if_neg hcond]
      exact h

theorem pypathStem_head? {b : String} {c : Char}
    (h : (pypathStem b).data.head? = some c) : b.data.head? = some c := by
  unfold pypathStem at h
  cases hr : rfindDot b.data with
  | none =>
    rw [hr] at h
    exact h
  | some i =>
    rw [hr] at h
    simp only [stemCut] at h
    by_cases hcond : 0 < i ∧ i < b.data.length - 1
    · rw [if_pos hcond] at h
      cases hb : b.data with
      | nil =>
        rw [hb] at h
        simp at h
      | cons a t =>
        rw [hb] at h
        obtain ⟨i', rfl⟩ : ∃ i', i = i' + 1 := ⟨i - 1, by omega⟩
        simp at h
        simp [h]
    · rw [if_neg hcond] at h
      exact h

theorem takeWhile_append_slash {r : List Char} : ∀ {a : List Char}, '/' ∉ a →
    (a ++ '/' :: r).takeWhile (fun c => decide (c ≠ '/')) = a := by
  intro a
  induction a with
  | nil =>
    intro _
    simp [List.takeWhile]
  | cons c t ih =>
    intro h
    have hc : c ≠ '/' := fun he => h (he ▸ List.mem_cons_self c t)
    have ht : '/' ∉ t := fun hm => h (List.mem_cons_of_mem c hm)
    rw [List.cons_append, List.takeWhile_cons, if_pos (by simp [hc]), ih ht]

theorem takeWhile_slashfree : ∀ {a : List Char}, '/' ∉ a →
    a.takeWhile (fun c => decide (c ≠ '/')) = a := by
  intro a
  induction a with
  | nil => intro _; rfl
  | cons c t ih =>
    intro h
    have hc : c ≠ '/' := fun he => h (he ▸ List.mem_cons_self c t)
    have ht : '/' ∉ t := fun hm => h (List.mem_cons_of_mem c hm)
    rw [List.takeWhile_cons, if_pos (by simp [hc]), ih ht]

theorem headSeg_append_slash {a r : List Char} (h : '/' ∉ a) :
    headSeg (String.mk (a ++ '/' :: r)) = String.mk a := by
  unfold headSeg
  rw [show (String.mk (a ++ '/' :: r)).data = a ++ '/' :: r from rfl, takeWhile_append_slash h]

theorem headSeg_slashfree {s : String} (h : '/' ∉ s.data) : headSeg s = s := by
  unfold headSeg
  rw [takeWhile_slashfree h]

theorem append_slash_inj : ∀ {a b r s : List Char}, '/' ∉ a → '/' ∉ b →
    a ++ '/' :: r = b ++ '/' :: s → a = b ∧ r = s := by
  intro a
  induction a with
  | nil =>
    intro b r s _ hb h
    cases b with
    | nil =>
      simp at h
      exact ⟨rfl, h⟩
    | cons d u =>
      rw [List.nil_append, List.cons_append] at h
      injection h with h1 _
      exact absurd h1.symm (fun he => hb (he ▸ List.mem_cons_self d u))
  | cons c t ih =>
    intro b r s ha hb h
    cases b with
    | nil =>
      rw [List.cons_append, List.nil_append] at h
      injection h with h1 _
      exact absurd h1 (fun he => ha (he ▸ List.mem_cons_self c t))
    | cons d u =>
      rw [List.cons_append, List.cons_append] at h
      injection h with h1 h2
      have ht : '/' ∉ t := fun hm => ha (List.mem_cons_of_mem c hm)
      have hu : '/' ∉ u := fun hm => hb (List.mem_cons_of_mem d hm)
      obtain ⟨he, hr⟩ := ih ht hu h2
      exact ⟨by rw [h1, he], hr⟩

/-! ### Builder structure lemmas -/

theorem buildNamesGo_eq : ∀ (names : List (Option String)) (ex : List String),
    buildNamesGo names ex =
      (uniquifyGo ex (truthyNames names)).map (fun f => (write_empty_folder f, ([] : List Nat))) := by
  intro names
  induction names with
  | nil => intro ex; rfl
  | cons n t ih =>
    intro ex
    cases n with
    | none =>
      simp only [buildNamesGo, truthyNames]
      exact ih ex
    | some s =>
      by_cases hs : s = ""
      · subst hs
        simp only [buildNamesGo, truthyNames, if_pos rfl]
        exact ih ex
      · simp only [buildNamesGo, truthyNames, if_neg hs]
        rw [show uniquifyGo ex (s :: truthyNames t) =
            (make_unique s ex).1 :: uniquifyGo (make_unique s ex).2 (truthyNames t) from rfl]
        rw [List.map_cons, ih]

theorem buildZipGo_eq (all : List ZEntry) (inc san : Bool) (nfkc : String → String) :
    ∀ (es : List ZEntry) (ex : List String),
    buildZipGo all inc san nfkc es ex =
      outBlocks inc all (listCandidates es)
        (uniquifyGo ex ((listCandidates es).map (fun c => candName san nfkc c.stem))) := by
  intro es
  induction es with
  | nil => intro ex; rfl
  | cons e t ih =>
    intro ex
    by_cases h1 : zipIsDir e
    · simp only [buildZipGo, listCandidates, if_pos h1]
      exact ih ex
    · by_cases h2 : inSystemDir e
      · simp only [buildZipGo, listCandidates, if_neg h1, if_pos h2]
        exact ih ex
      · by_cases h3 : pypathName e.filename ∈ SYSTEM_BASENAMES
        · simp only [buildZipGo, listCandidates, if_neg h1, if_neg h2, if_pos h3]
          exact ih ex
        · simp only [buildZipGo, listCandidates, if_neg h1, if_neg h2, if_neg h3,
            List.map_cons, uniquifyGo, outBlocks]
          rw [ih]

theorem listCandidates_shape : ∀ (es : List ZEntry), ∀ c ∈ listCandidates es,
    c.basename = pypathName c.filename ∧ c.stem = pypathStem c.basename := by
  intro es
  induction es with
  | nil => simp [listCandidates]
  | cons e t ih =>
    intro c hc
    unfold listCandidates at hc
    by_cases h1 : zipIsDir e
    · rw [if_pos h1] at hc
      exact ih c hc
    · rw [if_neg h1] at hc
      by_cases h2 : inSystemDir e
      · rw [if_pos h2] at hc
        exact ih c hc
      · rw [if_neg h2] at hc
        by_cases h3 : pypathName e.filename ∈ SYSTEM_BASENAMES
        · rw [if_pos h3] at hc
          exact ih c hc
        · rw [if_neg h3] at hc
          rcases List.mem_cons.mp hc with h4 | h5
          · subst h4
            exact ⟨rfl, rfl⟩
          · exact ih c h5

theorem candName_ne_empty (san : Bool) (nfkc : String → String) (stem : String) :
    candName san nfkc stem ≠ "" := by
  unfold candName
  by_cases hs : san = true
  · rw [if_pos hs]
    exact sanitize_name_ne_empty nfkc stem
  · rw [if_neg hs]
    by_cases h0 : stripList pyIsSpace stem.data = []
    · rw [if_pos h0]
      decide
    · rw [if_neg h0]
      intro he
      exact h0 (String_mk_inj (he.trans rfl))

theorem candName_no_slash (san : Bool) (nfkc : String → String) {stem : String}
    (h : '/' ∉ stem.data) : '/' ∉ (candName san nfkc stem).data := by
  unfold candName
  by_cases hs : san = true
  · rw [if_pos hs]
    exact sanitize_name_no_slash nfkc stem
  · rw [if_neg hs]
    by_cases h0 : stripList pyIsSpace stem.data = []
    · rw [if_pos h0]
      decide
    · rw [if_neg h0]
      intro hmem
      exact h (mem_of_mem_stripList hmem)

/-- The folder names produced by the zip builder pipeline are nonempty and
slash-free. -/
theorem zip_folder_facts (san : Bool) (nfkc : String → String) :
    ∀ (es : List ZEntry) (ex : List String),
    ∀ f ∈ uniquifyGo ex ((listCandidates es).map (fun c => candName san nfkc c.stem)),
      f ≠ "" ∧ '/' ∉ f.data := by
  intro es ex f hf
  obtain ⟨n, j, hn, rfl⟩ := uniquifyGo_mem_is_cand _ ex f hf
  rw [List.mem_map] at hn
  obtain ⟨c, hc, rfl⟩ := hn
  obtain ⟨hb, hstem⟩ := listCandidates_shape es c hc
  have hbs : '/' ∉ c.basename.data := hb ▸ pypathName_no_slash c.filename
  have hss : '/' ∉ c.stem.data := hstem ▸ pypathStem_no_slash hbs
  exact ⟨cand_ne_empty (candName_ne_empty san nfkc c.stem) j,
    cand_no_slash (candName_no_slash san nfkc hss) j⟩

theorem sanitize_cand_ne_dot (nfkc : String → String) (s : String) (j : Nat) :
    cand (sanitize_name nfkc s) j ≠ "." := by
  intro h
  obtain ⟨hj, hbase⟩ := cand_eq_dot_iff h
  have := sanitize_name_getLast?_not nfkc s '.'
  rw [hbase] at this
  have h2 := this rfl
  simp [isSpaceDot] at h2

theorem outBlocks_map_fst (inc : Bool) (all : List ZEntry) :
    ∀ (cs : List Candidate) (fs : List String),
    (∀ f ∈ fs, f ≠ "" ∧ '/' ∉ f.data) →
    (outBlocks inc all cs fs).map Prod.fst = pathBlocks inc cs fs := by
  intro cs
  induction cs with
  | nil =>
    intro fs _
    cases fs <;> rfl
  | cons c t ih =>
    intro fs hfs
    cases fs with
    | nil => rfl
    | cons f fs' =>
      obtain ⟨hf1, hf2⟩ := hfs f (List.mem_cons_self f fs')
      simp only [outBlocks, pathBlocks, List.map_cons, List.map_append]
      rw [write_empty_folder_eq hf1 hf2]
      congr 1
      rw [ih fs' (fun g hg => hfs g (List.mem_cons_of_mem f hg))]
      cases inc <;> rfl

theorem mem_pathBlocks (inc : Bool) : ∀ (cs : List Candidate) (fs : List String) (p : String),
    p ∈ pathBlocks inc cs fs →
    ∃ c f, (c, f) ∈ cs.zip fs ∧
      (p = String.mk (f.data ++ '/' :: keepChars) ∨ p = posixJoin f c.basename) := by
  intro cs
  induction cs with
  | nil =>
    intro fs p hp
    cases fs <;> simp [pathBlocks] at hp
  | cons c t ih =>
    intro fs p hp
    cases fs with
    | nil => simp [pathBlocks] at hp
    | cons f fs' =>
      simp only [pathBlocks] at hp
      rcases List.mem_cons.mp hp with h1 | h2
      · exact ⟨c, f, List.mem_cons_self _ _, Or.inl h1⟩
      · rcases List.mem_append.mp h2 with h3 | h4
        · refine ⟨c, f, List.mem_cons_self _ _, Or.inr ?_⟩
          cases inc with
          | true =>
            simp at h3
            exact h3
          | false => simp at h3
        · obtain ⟨c2, f2, hmem, hor⟩ := ih fs' p h4
          exact ⟨c2, f2, List.mem_cons_of_mem _ hmem, hor⟩

theorem zip_link (san : Bool) (nfkc : String → String) :
    ∀ (cs : List Candidate) (ex : List String), ∀ p ∈ cs.zip (uniquifyGo ex (cs.map (fun c => candName san nfkc c.stem))),
      ∃ j, p.2 = cand (candName san nfkc p.1.stem) j := by
  intro cs
  induction cs with
  | nil => simp
  | cons c t ih =>
    intro ex p hp
    simp only [List.map_cons] at hp
    rw [show uniquifyGo ex (candName san nfkc c.stem :: t.map (fun c => candName san nfkc c.stem)) =
        (make_unique (candName san nfkc c.stem) ex).1 ::
          uniquifyGo (make_unique (candName san nfkc c.stem) ex).2
            (t.map (fun c => candName san nfkc c.stem)) from rfl] at hp
    rw [List.zip_cons_cons] at hp
    rcases List.mem_cons.mp hp with h1 | h2
    · obtain ⟨j, hj⟩ := make_unique_fst_is_cand (candName san nfkc c.stem) ex
      refine ⟨j, ?_⟩
      rw [h1]
      exact hj
    · exact ih _ p h2

/-! ### Distinctness of output entry paths -/

theorem ne_of_slash {x y : String} (hx : '/' ∈ x.data) (hy : '/' ∉ y.data) : x ≠ y :=
  fun he => hy (he ▸ hx)

theorem slash_mem_marker (f : String) : '/' ∈ (String.mk (f.data ++ '/' :: keepChars)).data := by
  rw [show (String.mk (f.data ++ '/' :: keepChars)).data = f.data ++ '/' :: keepChars from rfl]
  exact List.mem_append.mpr (Or.inr (List.mem_cons_self _ _))

theorem marker_inj {f g : String} (hf : '/' ∉ f.data) (hg : '/' ∉ g.data)
    (h : String.mk (f.data ++ '/' :: keepChars) = String.mk (g.data ++ '/' :: keepChars)) :
    f = g := by
  have := append_slash_inj hf hg (String_mk_inj h)
  exact String.ext this.1

theorem posixJoin_shape (f b : String) (hf : f ≠ "") (hfs : '/' ∉ f.data)
    (hbs : '/' ∉ b.data) (hbdot : b ≠ ".") (hbf : b = "" → f ≠ ".") :
    (b = "" ∧ posixJoin f b = f) ∨
    (f = "." ∧ b ≠ "" ∧ posixJoin f b = b) ∨
    (f ≠ "." ∧ b ≠ "" ∧ posixJoin f b = String.mk (f.data ++ '/' :: b.data)) := by
  by_cases hb : b = ""
  · left
    refine ⟨hb, ?_⟩
    rw [posixJoin_eq f b hf hfs hbs, if_pos (Or.inl hb), if_neg (hbf hb)]
  · by_cases hfdot : f = "."
    · right
      left
      refine ⟨hfdot, hb, ?_⟩
      rw [posixJoin_eq f b hf hfs hbs, if_neg (by push_neg; exact ⟨hb, hbdot⟩), if_pos hfdot]
    · right
      right
      refine ⟨hfdot, hb, ?_⟩
      rw [posixJoin_eq f b hf hfs hbs, if_neg (by push_neg; exact ⟨hb, hbdot⟩), if_neg hfdot]

theorem row_marker_ne_content {c : Candidate} {f : String} (h : RowH (c, f)) :
    String.mk (f.data ++ '/' :: keepChars) ≠ posixJoin f c.basename := by
  obtain ⟨hf1, hf2, hb2, hbdot, hbkeep, hbf⟩ := h
  rcases posixJoin_shape f c.basename hf1 hf2 hb2 hbdot hbf with ⟨_, hp⟩ | ⟨_, _, hp⟩ | ⟨_, _, hp⟩
  · rw [hp]
    exact ne_of_slash (slash_mem_marker f) hf2
  · rw [hp]
    exact ne_of_slash (slash_mem_marker f) hb2
  · rw [hp]
    intro he
    have := append_slash_inj hf2 hf2 (String_mk_inj he)
    have hb : c.basename = ".keep" := by
      have h2 := this.2
      exact String.ext (h2.symm.trans rfl)
    exact hbkeep hb

theorem row_paths_ne {c : Candidate} {f : String} {c2 : Candidate} {f2 : String}
    (h1 : RowH (c, f)) (h2 : RowH (c2, f2)) (hne : f ≠ f2)
    (hU : c.basename = "" → f2 = "." → f ≠ c2.basename)
    (hU2 : c2.basename = "" → f = "." → f2 ≠ c.basename) :
    String.mk (f.data ++ '/' :: keepChars) ≠ String.mk (f2.data ++ '/' :: keepChars) ∧
    String.mk (f.data ++ '/' :: keepChars) ≠ posixJoin f2 c2.basename ∧
    posixJoin f c.basename ≠ String.mk (f2.data ++ '/' :: keepChars) ∧
    posixJoin f c.basename ≠ posixJoin f2 c2.basename := by
  obtain ⟨hf1, hf2', hb2', hbdot, hbkeep, hbf⟩ := h1
  obtain ⟨hg1, hg2, hc2', hcdot, hckeep, hcf⟩ := h2
  refine ⟨?_, ?_, ?_, ?_⟩
  · intro he
    exact hne (marker_inj hf2' hg2 he)
  · rcases posixJoin_shape f2 c2.basename hg1 hg2 hc2' hcdot hcf with ⟨_, hp⟩ | ⟨_, _, hp⟩ | ⟨_, _, hp⟩
    · rw [hp]
      exact ne_of_slash (slash_mem_marker f) hg2
    · rw [hp]
      exact ne_of_slash (slash_mem_marker f) hc2'
    · rw [hp]
      intro he
      exact hne (String.ext (append_slash_inj hf2' hg2 (String_mk_inj he)).1)
  · rcases posixJoin_shape f c.basename hf1 hf2' hb2' hbdot hbf with ⟨_, hp⟩ | ⟨_, _, hp⟩ | ⟨_, _, hp⟩
    · rw [hp]
      exact (ne_of_slash (slash_mem_marker f2) hf2').symm
    · rw [hp]
      exact (ne_of_slash (slash_mem_marker f2) hb2').symm
    · rw [hp]
      intro he
      exact hne (String.ext (append_slash_inj hf2' hg2 (String_mk_inj he)).1)
  · rcases posixJoin_shape f c.basename hf1 hf2' hb2' hbdot hbf with ⟨he1, hp⟩ | ⟨he1, he1b, hp⟩ | ⟨he1, he1b, hp⟩ <;>
      rcases posixJoin_shape f2 c2.basename hg1 hg2 hc2' hcdot hcf with ⟨he2, hq⟩ | ⟨he2, he2b, hq⟩ | ⟨he2, he2b, hq⟩
    · rw [hp, hq]
      exact hne
    · rw [hp, hq]
      exact hU he1 he2
    · rw [hp, hq]
      intro he
      have hmem : '/' ∈ f2.data ++ '/' :: c2.basename.data :=
        List.mem_append.mpr (Or.inr (List.mem_cons_self _ _))
      exact hf2' (by rw [he]; exact hmem)
    · rw [hp, hq]
      exact fun he => (hU2 he2 he1) he.symm
    · rw [hp, hq]
      intro he
      exact hne (he1.trans he2.symm)
    · rw [hp, hq]
      intro he
      have : '/' ∈ c.basename.data := by
        rw [he]
        exact List.mem_append.mpr (Or.inr (List.mem_cons_self _ _))
      exact hb2' this
    · rw [hp, hq]
      intro he
      have hmem : '/' ∈ f.data ++ '/' :: c.basename.data :=
        List.mem_append.mpr (Or.inr (List.mem_cons_self _ _))
      exact hg2 (by rw [← he]; exact hmem)
    · rw [hp, hq]
      intro he
      have hmem : '/' ∈ f.data ++ '/' :: c.basename.data :=
        List.mem_append.mpr (Or.inr (List.mem_cons_self _ _))
      exact hc2' (he ▸ hmem)
    · rw [hp, hq]
      intro he
      exact hne (String.ext (append_slash_inj hf2' hg2 (String_mk_inj he)).1)

theorem pathBlocks_nodup (inc : Bool) : ∀ (cs : List Candidate) (fs : List String),
    cs.length = fs.length →
    fs.Nodup →
    (∀ q ∈ cs.zip fs, RowH q) →
    (∀ p ∈ cs.zip fs, ∀ q ∈ cs.zip fs, p.1.basename = "" → q.2 = "." → p.2 ≠ q.1.basename) →
    (pathBlocks inc cs fs).Nodup := by
  intro cs
  induction cs with
  | nil =>
    intro fs _ _ _ _
    cases fs <;> simp [pathBlocks]
  | cons c t ih =>
    intro fs hlen hnd hrow hcross
    cases fs with
    | nil => simp at hlen
    | cons f fs' =>
      rw [List.zip_cons_cons] at hrow hcross
      have hpair : ((c, f) : Candidate × String) ∈ (c, f) :: t.zip fs' :=
        List.mem_cons_self _ _
      have hRf := hrow (c, f) hpair
      rw [List.nodup_cons] at hnd
      obtain ⟨hfnot, hnd'⟩ := hnd
      have hrow' : ∀ q ∈ t.zip fs', RowH q :=
        fun q hq => hrow q (List.mem_cons_of_mem _ hq)
      have hcross' : ∀ p ∈ t.zip fs', ∀ q ∈ t.zip fs',
          p.1.basename = "" → q.2 = "." → p.2 ≠ q.1.basename :=
        fun p hp q hq => hcross p (List.mem_cons_of_mem _ hp) q (List.mem_cons_of_mem _ hq)
      have hih := ih fs' (by simpa using hlen) hnd' hrow' hcross'
      have hcrossrest : ∀ c2 f2, (c2, f2) ∈ t.zip fs' → f ≠ f2 := by
        intro c2 f2 hm he
        exact hfnot (he ▸ (List.of_mem_zip hm).2)
      simp only [pathBlocks]
      rw [List.nodup_cons]
      constructor
      · intro hmem
        rcases List.mem_append.mp hmem with hco | hrest
        · have heq : String.mk (f.data ++ '/' :: keepChars) = posixJoin f c.basename := by
            cases inc with
            | true => simpa using hco
            | false => simp at hco
          exact row_marker_ne_content hRf heq
        · obtain ⟨c2, f2, hm2, hor⟩ := mem_pathBlocks inc t fs' _ hrest
          have hR2 := hrow' (c2, f2) hm2
          have hne := hcrossrest c2 f2 hm2
          have hU : c.basename = "" → f2 = "." → f ≠ c2.basename :=
            hcross (c, f) hpair (c2, f2) (List.mem_cons_of_mem _ hm2)
          have hU2 : c2.basename = "" → f = "." → f2 ≠ c.basename :=
            hcross (c2, f2) (List.mem_cons_of_mem _ hm2) (c, f) hpair
          obtain ⟨hx1, hx2, _, _⟩ := row_paths_ne hRf hR2 hne hU hU2
          rcases hor with h5 | h6
          · exact hx1 h5
          · exact hx2 h6
      · rw [List.nodup_append]
        refine ⟨?_, hih, ?_⟩
        · cases inc <;> simp
        · intro p hp hprest
          have hpco : p = posixJoin f c.basename := by
            cases inc with
            | true => simpa using hp
            | false => simp at hp
          obtain ⟨c2, f2, hm2, hor⟩ := mem_pathBlocks inc t fs' _ hprest
          have hR2 := hrow' (c2, f2) hm2
          have hne := hcrossrest c2 f2 hm2
          have hU : c.basename = "" → f2 = "." → f ≠ c2.basename :=
            hcross (c, f) hpair (c2, f2) (List.mem_cons_of_mem _ hm2)
          have hU2 : c2.basename = "" → f = "." → f2 ≠ c.basename :=
            hcross (c2, f2) (List.mem_cons_of_mem _ hm2) (c, f) hpair
          obtain ⟨_, _, hx3, hx4⟩ := row_paths_ne hRf hR2 hne hU hU2
          rcases hor with h5 | h6
          · exact hx3 (hpco ▸ h5)
          · exact hx4 (hpco ▸ h6)

theorem pypathStem_empty : pypathStem "" = "" := rfl

theorem candName_false_empty (nfkc : String → String) : candName false nfkc "" = "Untitled" := rfl

theorem candName_ne_dot_of_empty (san : Bool) (nfkc : String → String) :
    candName san nfkc "" ≠ "." := by
  unfold candName
  by_cases hs : san = true
  · rw [if_pos hs]
    intro h
    have := sanitize_name_getLast?_not nfkc "" '.'
    rw [h] at this
    have h2 := this rfl
    simp [isSpaceDot] at h2
  · rw [if_neg hs]
    rw [show stripList pyIsSpace ("" : String).data = [] from rfl]
    decide

theorem candName_false_eq_dot {nfkc : String → String} {stem : String}
    (h : candName false nfkc stem = ".") :
    ∃ hc, stem.data.head? = some hc ∧ (pyIsSpace hc = true ∨ hc = '.') := by
  unfold candName at h
  rw [if_neg (by simp)] at h
  by_cases h0 : stripList pyIsSpace stem.data = []
  · rw [if_pos h0] at h
    exact absurd h (by decide)
  · rw [if_neg h0] at h
    have hstrip : stripList pyIsSpace stem.data = ['.'] := String_mk_inj (h.trans rfl)
    obtain ⟨hc, hhead, hor⟩ := stripList_head?_or h0
    refine ⟨hc, hhead, ?_⟩
    rcases hor with h1 | h2
    · exact Or.inl h1
    · right
      rw [hstrip] at h2
      simp at h2
      exact h2.symm

theorem zip_rows_basic (san : Bool) (nfkc : String → String) (es : List ZEntry)
    (ex : List String) :
    ∀ q ∈ (listCandidates es).zip
        (uniquifyGo ex ((listCandidates es).map (fun c => candName san nfkc c.stem))),
      q.2 ≠ "" ∧ '/' ∉ q.2.data ∧ '/' ∉ q.1.basename.data ∧ q.1.basename ≠ "." ∧
        (q.1.basename = "" → q.2 ≠ ".") := by
  intro q hq
  obtain ⟨hc, hf⟩ := List.of_mem_zip hq
  obtain ⟨hshape1, hshape2⟩ := listCandidates_shape es q.1 hc
  obtain ⟨hf1, hf2⟩ := zip_folder_facts san nfkc es ex q.2 hf
  have hbs : '/' ∉ q.1.basename.data := hshape1 ▸ pypathName_no_slash q.1.filename
  have hbdot : q.1.basename ≠ "." := hshape1 ▸ pypathName_ne_dot q.1.filename
  refine ⟨hf1, hf2, hbs, hbdot, ?_⟩
  intro hbe hfdot
  obtain ⟨j, hj⟩ := zip_link san nfkc (listCandidates es) ex q hq
  have hstem : q.1.stem = "" := by
    rw [hshape2, hbe, pypathStem_empty]
  rw [hstem] at hj
  rw [hj] at hfdot
  obtain ⟨_, hbase⟩ := cand_eq_dot_iff hfdot
  exact candName_ne_dot_of_empty san nfkc hbase

theorem zip_rows_RowH (san : Bool) (nfkc : String → String) (es : List ZEntry) (ex : List String)
    (hkeep : ∀ c ∈ listCandidates es, c.basename ≠ ".keep") :
    ∀ q ∈ (listCandidates es).zip
        (uniquifyGo ex ((listCandidates es).map (fun c => candName san nfkc c.stem))), RowH q := by
  intro q hq
  obtain ⟨hc, _⟩ := List.of_mem_zip hq
  obtain ⟨hf1, hf2, hbs, hbdot, hbf⟩ := zip_rows_basic san nfkc es ex q hq
  exact ⟨hf1, hf2, hbs, hbdot, hkeep q.1 hc, hbf⟩

theorem zip_rows_cross (san : Bool) (nfkc : String → String) (es : List ZEntry) (ex : List String) :
    ∀ p ∈ (listCandidates es).zip
        (uniquifyGo ex ((listCandidates es).map (fun c => candName san nfkc c.stem))),
    ∀ q ∈ (listCandidates es).zip
        (uniquifyGo ex ((listCandidates es).map (fun c => candName san nfkc c.stem))),
      p.1.basename = "" → q.2 = "." → p.2 ≠ q.1.basename := by
  intro p hp q hq hbe hqdot
  obtain ⟨jq, hjq⟩ := zip_link san nfkc (listCandidates es) ex q hq
  rw [hjq] at hqdot
  obtain ⟨_, hqbase⟩ := cand_eq_dot_iff hqdot
  cases san with
  | true =>
    exact absurd hqbase (by
      intro h
      have := sanitize_name_getLast?_not nfkc q.1.stem '.'
      rw [show candName true nfkc q.1.stem = sanitize_name nfkc q.1.stem from rfl] at h
      rw [h] at this
      have h2 := this rfl
      simp [isSpaceDot] at h2)
  | false =>
    obtain ⟨jp, hjp⟩ := zip_link false nfkc (listCandidates es) ex p hp
    obtain ⟨hpshape1, hpshape2⟩ := listCandidates_shape es p.1 (List.of_mem_zip hp).1
    obtain ⟨hqshape1, hqshape2⟩ := listCandidates_shape es q.1 (List.of_mem_zip hq).1
    have hpstem : p.1.stem = "" := by
      rw [hpshape2, hbe, pypathStem_empty]
    rw [hpstem, candName_false_empty] at hjp
    have hphead : p.2.data.head? = some 'U' := by
      rw [hjp]
      rw [cand_head? (by decide) jp]
      rfl
    obtain ⟨hc, hshead, hor⟩ := candName_false_eq_dot hqbase
    have hbhead : q.1.basename.data.head? = some hc := by
      apply pypathStem_head?
      rw [← hqshape2]
      exact hshead
    intro he
    rw [he] at hphead
    rw [hphead] at hbhead
    rw [Option.some_inj] at hbhead
    rcases hor with h1 | h2
    · rw [← hbhead] at h1
      exact absurd h1 (by decide)
    · rw [← hbhead] at h2
      exact absurd h2 (by decide)

/-! ### Fixed point of sanitize_name -/

theorem sanitize_name_fixpoint (nfkc : String → String) (y : String)
    (hk : nfkc y = y)
    (hnf : ∀ c ∈ y.data, isForbidden c = false)
    (hhead : ∀ c, y.data.head? = some c → pyIsSpace c = false)
    (hlast : ∀ c, y.data.getLast? = some c → pyIsSpace c = false)
    (hlastdot : ∀ c, y.data.getLast? = some c → isSpaceDot c = false)
    (hne : y ≠ "") :
    sanitize_name nfkc y = y := by
  have hstrip : stripList pyIsSpace (nfkc y).data = y.data := by
    rw [hk]
    exact stripList_eq_self hhead hlast
  have hcore : sanitizeCore nfkc y = y.data := by
    unfold sanitizeCore
    rw [hstrip, map_subChar_eq_self hnf]
    exact rstripList_eq_self hlastdot
  unfold sanitize_name
  rw [if_neg (by rw [hcore]; exact fun h0 => hne (String.ext h0))]
  rw [hcore]

/-! ### Element access for uniquify -/

theorem uniquifyList_getElem (ns : List String) (i : Nat) (n : String)
    (hn : ns[i]? = some n) (hfirst : n ∉ uniquifyList (ns.take i)) :
    (uniquifyList ns)[i]? = some n := by
  rw [List.getElem?_eq_some] at hn
  obtain ⟨hi, hni⟩ := hn
  have hdrop : ns.drop i = n :: ns.drop (i + 1) := by
    rw [List.drop_eq_getElem_cons hi, hni]
  unfold uniquifyList
  conv_lhs => rw [← List.take_append_drop i ns]
  rw [uniquifyGo_append, hdrop]
  rw [show uniquifyGo ((uniquifyGo [] (ns.take i)).reverse ++ []) (n :: ns.drop (i + 1)) =
      (make_unique n ((uniquifyGo [] (ns.take i)).reverse ++ [])).1 ::
        uniquifyGo (make_unique n ((uniquifyGo [] (ns.take i)).reverse ++ [])).2
          (ns.drop (i + 1)) from rfl]
  have hlenA : (uniquifyGo [] (ns.take i)).length = i := by
    rw [uniquifyGo_length, List.length_take]
    omega
  rw [List.getElem?_append_right (by omega)]
  rw [hlenA, Nat.sub_self]
  have hreg : n ∉ (uniquifyGo [] (ns.take i)).reverse ++ [] := by
    rw [List.append_nil, List.mem_reverse]
    exact hfirst
  rw [make_unique_of_not_mem hreg]
  simp

/-! ### Markers and head segments of zip-builder output -/

theorem outBlocks_marker_mem (inc : Bool) (all : List ZEntry) :
    ∀ (cs : List Candidate) (fs : List String), cs.length = fs.length →
    ∀ f ∈ fs, (write_empty_folder f, ([] : List Nat)) ∈ outBlocks inc all cs fs := by
  intro cs
  induction cs with
  | nil =>
    intro fs hlen f hf
    cases fs with
    | nil => simp at hf
    | cons g gs => simp at hlen
  | cons c t ih =>
    intro fs hlen f hf
    cases fs with
    | nil => simp at hf
    | cons g gs =>
      simp only [outBlocks]
      rcases List.mem_cons.mp hf with h1 | h2
      · subst h1
        exact List.mem_cons_self _ _
      · apply List.mem_cons_of_mem
        apply List.mem_append.mpr
        right
        exact ih gs (by simpa using hlen) f h2

theorem headSeg_of_path {c : Candidate} {f : String}
    (hf1 : f ≠ "") (hf2 : '/' ∉ f.data) (hb2 : '/' ∉ c.basename.data)
    (hbdot : c.basename ≠ ".") (hbf : c.basename = "" → f ≠ ".") (hfdot : f ≠ ".")
    (p : String)
    (hor : p = String.mk (f.data ++ '/' :: keepChars) ∨ p = posixJoin f c.basename) :
    headSeg p = f := by
  rcases hor with h1 | h2
  · rw [h1, headSeg_append_slash hf2]
  · rcases posixJoin_shape f c.basename hf1 hf2 hb2 hbdot hbf with ⟨_, hp⟩ | ⟨hp1, _, _⟩ | ⟨_, _, hp⟩
    · rw [h2, hp]
      exact headSeg_slashfree hf2
    · exact absurd hp1 hfdot
    · rw [h2, hp, headSeg_append_slash hf2]

/-- With sanitization enabled every pipeline folder name differs from `"."`
(sanitize output never ends in a period, and probe suffixes end in `")"`). -/
theorem zip_folder_ne_dot_san (nfkc : String → String) (es : List ZEntry) (ex : List String) :
    ∀ q ∈ (listCandidates es).zip
        (uniquifyGo ex ((listCandidates es).map (fun c => candName true nfkc c.stem))),
      q.2 ≠ "." := by
  intro q hq
  obtain ⟨j, hj⟩ := zip_link true nfkc (listCandidates es) ex q hq
  rw [hj]
  rw [show candName true nfkc q.1.stem = sanitize_name nfkc q.1.stem from rfl]
  exact sanitize_cand_ne_dot nfkc q.1.stem j

/-! ### Bridging the spec-side pipeline to the builder pipeline -/

theorem specFolders_eq (nfkc : String → String) (entries : List ZEntry) :
    specFolders nfkc entries =
      uniquifyGo [] ((listCandidates entries).map (fun c => candName true nfkc c.stem)) := rfl

/-! ## Claim theorems -/

/-- C1: for every input string (and any normalization), the result of
`sanitize_name` is non-empty, contains no forbidden character (backslash,
slash, colon, asterisk, question mark, double quote, angle brackets, pipe)
and no ASCII control code point 0x00-0x1F, and does not end with a space or
a period. -/
theorem claim_C1 (nfkc : String → String) (s : String) :
    sanitize_name nfkc s ≠ "" ∧
    (∀ c ∈ (sanitize_name nfkc s).data, c ∉ FORBIDDEN ∧ 0x1f < c.toNat) ∧
    (∀ c, (sanitize_name nfkc s).data.getLast? = some c → c ≠ ' ' ∧ c ≠ '.') := by
  refine ⟨sanitize_name_ne_empty nfkc s, ?_, ?_⟩
  · intro c hc
    have h := sanitize_name_no_forbidden nfkc s c hc
    unfold isForbidden at h
    simp at h
    exact ⟨h.1, by omega⟩
  · intro c hc
    have h := sanitize_name_getLast?_not nfkc s c hc
    unfold isSpaceDot at h
    simp at h
    exact h

theorem claim_C1_witness :
    sanitize_name id " a*b. " ≠ "" ∧ ('a' ∉ FORBIDDEN ∧ 0x1f < 'a'.toNat) ∧
      ('b' ≠ ' ' ∧ 'b' ≠ '.') :=
  ⟨(claim_C1 id " a*b. ").1, (claim_C1 id " a*b. ").2.1 'a' (by decide),
    (claim_C1 id " a*b. ").2.2 'b' (by decide)⟩

/-- C2 counterexample: on the sequence `["Report", "Report", "Report (2)"]`
the third name occurs for the first time, yet `make_unique` returns it
suffixed (`"Report (2) (2)"`), because an earlier output already claimed
`"Report (2)"` in the registry.  So "the first occurrence of any name is
returned unchanged" fails as stated. -/
theorem cex_C2 :
    uniquifyList ["Report", "Report", "Report (2)"] =
      ["Report", "Report (2)", "Report (2) (2)"] ∧
    "Report (2)" ∉ ["Report", "Report"] ∧
    (uniquifyList ["Report", "Report", "Report (2)"])[2]? ≠ some "Report (2)" := by
  decide

/-- C2 (amended): `make_unique` applied across any sequence from an empty
registry yields pairwise-distinct outputs; a name not already in the
registry is returned unchanged with only a registry insertion; hence an
element is returned unchanged whenever it differs from all earlier outputs
(not merely from all earlier inputs); and `build_zip_from_names` on three
`"Report"`s yields exactly the directories `Report`, `Report (2)`,
`Report (3)`. -/
theorem claim_C2 :
    (∀ ns : List String, (uniquifyList ns).Nodup) ∧
    (∀ (n : String) (ex : List String), n ∉ ex → make_unique n ex = (n, n :: ex)) ∧
    (∀ (ns : List String) (i : Nat) (n : String), ns[i]? = some n →
      n ∉ uniquifyList (ns.take i) → (uniquifyList ns)[i]? = some n) ∧
    build_zip_from_names [some "Report", some "Report", some "Report"] =
      [("Report/.keep", []), ("Report (2)/.keep", []), ("Report (3)/.keep", [])] := by
  exact ⟨fun ns => uniquifyGo_nodup ns [], fun n ex h => make_unique_of_not_mem h,
    uniquifyList_getElem, by decide⟩

theorem claim_C2_witness :
    (uniquifyList ["a", "a"]).Nodup ∧ make_unique "b" ["a"] = ("b", ["b", "a"]) ∧
    (uniquifyList ["a", "a", "c"])[2]? = some "c" :=
  ⟨claim_C2.1 ["a", "a"], claim_C2.2.1 "b" ["a"] (by decide),
    claim_C2.2.2.1 ["a", "a", "c"] 2 "c" (by decide) (by decide)⟩

/-- C3 counterexample: a source archive with two entries named `a.txt`
(payloads `[49]` and `[50]`).  `ZipFile.read` resolves a duplicated name to
the last entry, so the directory built from the *first* entry receives the
*second* entry's bytes: no entry `("a/a.txt", [49])` exists. -/
theorem cex_C3 :
    build_zip_from_filenames_zip [⟨"a.txt", [49]⟩, ⟨"a.txt", [50]⟩] true true id =
      [("a/.keep", []), ("a/a.txt", [50]), ("a (2)/.keep", []), ("a (2)/a.txt", [50])] ∧
    ("a/a.txt", [49]) ∉
      build_zip_from_filenames_zip [⟨"a.txt", [49]⟩, ⟨"a.txt", [50]⟩] true true id := by
  decide

/-- C3 (amended): with sanitization and content inclusion enabled, the
folder names are the sanitized, pairwise-distinct pipeline outputs; the
output archive is exactly one block per candidate, holding the zero-byte
marker `<name>/.keep` and one content entry at `<name>/<original basename>`
whose payload is the bytes of the **last** source entry with the same full
path (the entry's own bytes whenever source paths are unique); every marker
is present, and every entry path's top-level segment is a folder name. -/
theorem claim_C3 (nfkc : String → String) (entries : List ZEntry) :
    (specFolders nfkc entries).Nodup ∧
    build_zip_from_filenames_zip entries true true nfkc =
      outBlocks true entries (listCandidates entries) (specFolders nfkc entries) ∧
    (∀ f ∈ specFolders nfkc entries,
      (String.mk (f.data ++ '/' :: keepChars), ([] : List Nat)) ∈
        build_zip_from_filenames_zip entries true true nfkc) ∧
    (∀ p ∈ (build_zip_from_filenames_zip entries true true nfkc).map Prod.fst,
      headSeg p ∈ specFolders nfkc entries) := by
  have hfold := specFolders_eq nfkc entries
  have hfacts : ∀ f ∈ specFolders nfkc entries, f ≠ "" ∧ '/' ∉ f.data := by
    rw [hfold]
    exact zip_folder_facts true nfkc entries []
  have hlen : (listCandidates entries).length = (specFolders nfkc entries).length := by
    rw [hfold, uniquifyGo_length, List.length_map]
  have hmain : build_zip_from_filenames_zip entries true true nfkc =
      outBlocks true entries (listCandidates entries) (specFolders nfkc entries) := by
    unfold build_zip_from_filenames_zip
    rw [buildZipGo_eq, ← hfold]
  refine ⟨by rw [hfold]; exact uniquifyGo_nodup _ [], hmain, ?_, ?_⟩
  · intro f hf
    obtain ⟨hf1, hf2⟩ := hfacts f hf
    have hm := outBlocks_marker_mem true entries (listCandidates entries)
      (specFolders nfkc entries) hlen f hf
    rw [write_empty_folder_eq hf1 hf2] at hm
    rw [hmain]
    exact hm
  · intro p hp
    rw [hmain, outBlocks_map_fst true entries _ _ hfacts] at hp
    obtain ⟨c2, f2, hm2, hor⟩ := mem_pathBlocks true (listCandidates entries)
      (specFolders nfkc entries) p hp
    have hm2' : ((c2, f2) : Candidate × String) ∈ (listCandidates entries).zip
        (uniquifyGo [] ((listCandidates entries).map (fun c => candName true nfkc c.stem))) := by
      rw [← hfold]
      exact hm2
    obtain ⟨hf1, hf2', hb2, hbdot, hbf⟩ := zip_rows_basic true nfkc entries [] (c2, f2) hm2'
    have hfdot : f2 ≠ "." := zip_folder_ne_dot_san nfkc entries [] (c2, f2) hm2'
    rw [headSeg_of_path hf1 hf2' hb2 hbdot hbf hfdot p hor]
    exact (List.of_mem_zip hm2).2

theorem claim_C3_witness :
    (String.mk (("n" : String).data ++ '/' :: keepChars), ([] : List Nat)) ∈
      build_zip_from_filenames_zip [⟨"n.txt", [7]⟩] true true id ∧
    headSeg "n/n.txt" ∈ specFolders id [⟨"n.txt", [7]⟩] :=
  ⟨(claim_C3 id [⟨"n.txt", [7]⟩]).2.2.1 "n" (by decide),
    (claim_C3 id [⟨"n.txt", [7]⟩]).2.2.2 "n/n.txt" (by decide)⟩

/-- C4: exactly the entries that are not directories, not under the
`__MACOSX/` prefix, and whose basename is not a system artifact survive, in
stored order; and the three-entry example yields exactly the candidate
`notes.txt` with stem `notes`. -/
theorem claim_C4 :
    (∀ es : List ZEntry, listCandidates es =
      (es.filter (fun e => !zipIsDir e && !inSystemDir e &&
        !(decide (pypathName e.filename ∈ SYSTEM_BASENAMES)))).map
        (fun e => ⟨e.filename, pypathName e.filename, pypathStem (pypathName e.filename)⟩)) ∧
    listCandidates [⟨"__MACOSX/._x.txt", [1]⟩, ⟨"Thumbs.db", [2]⟩, ⟨"notes.txt", [3]⟩] =
      [⟨"notes.txt", "notes.txt", "notes"⟩] := by
  constructor
  · intro es
    induction es with
    | nil => rfl
    | cons e t ih =>
      by_cases h1 : zipIsDir e
      · simp only [listCandidates, if_pos h1, List.filter_cons, h1]
        simpa using ih
      · by_cases h2 : inSystemDir e
        · simp only [listCandidates, if_neg h1, if_pos h2, List.filter_cons, h2]
          simp only [Bool.not_eq_true] at h1
          simp [h1]
          exact ih
        · by_cases h3 : pypathName e.filename ∈ SYSTEM_BASENAMES
          · simp only [listCandidates, if_neg h1, if_neg h2, if_pos h3, List.filter_cons]
            simp only [Bool.not_eq_true] at h1 h2
            simp [h1, h2, h3]
            exact ih
          · simp only [listCandidates, if_neg h1, if_neg h2, if_neg h3, List.filter_cons]
            simp only [Bool.not_eq_true] at h1 h2
            simp [h1, h2, h3]
            exact ih
  · decide

/-- C5: the forbidden-character substitution happens before the trailing
space/period strip: the sanitize result never ends in a space or period;
`"A/B*C?.txt"` sanitizes to `"A-B-C-.txt"`; and on `"ab?."`, whose trailing
period survives substitution, the period is subsequently stripped, giving
`"ab-"`. -/
theorem claim_C5 :
    (∀ (nfkc : String → String) (s : String) (c : Char),
      (sanitize_name nfkc s).data.getLast? = some c → c ≠ ' ' ∧ c ≠ '.') ∧
    (∀ nfkc : String → String, nfkc "A/B*C?.txt" = "A/B*C?.txt" →
      sanitize_name nfkc "A/B*C?.txt" = "A-B-C-.txt") ∧
    (∀ nfkc : String → String, nfkc "ab?." = "ab?." →
      sanitize_name nfkc "ab?." = "ab-") := by
  refine ⟨?_, ?_, ?_⟩
  · intro nfkc s c hc
    have h := sanitize_name_getLast?_not nfkc s c hc
    unfold isSpaceDot at h
    simp at h
    exact h
  · intro nfkc h
    unfold sanitize_name sanitizeCore
    rw [h]
    decide
  · intro nfkc h
    unfold sanitize_name sanitizeCore
    rw [h]
    decide

theorem claim_C5_witness :
    ('t' ≠ ' ' ∧ 't' ≠ '.') ∧ sanitize_name id "A/B*C?.txt" = "A-B-C-.txt" ∧
      sanitize_name id "ab?." = "ab-" :=
  ⟨claim_C5.1 id "A/B*C?.txt" 't' (by decide), claim_C5.2.1 id rfl, claim_C5.2.2 id rfl⟩

/-- C6 counterexample: the `sanitize_name` of `streamlit_app.py` coerces its
argument with Python's `str(...)`, so a null input becomes the text
`"None"`, not the empty string, and the result is `"None"` rather than the
fallback `"Untitled"`. -/
theorem cex_C6 :
    sanitize_name_main id none = "None" ∧ sanitize_name_main id none ≠ "Untitled" := by
  decide

/-- C6 (amended): in the `streamlit_app 2.py` variant a null input is
coerced to the empty string and the result is the fallback `"Untitled"`; in
the `streamlit_app.py` variant `str(None)` yields the text `"None"`, which
is returned as is.  In both variants, every input whose pipeline result
(after coercion, normalization, stripping, substitution, and trailing
strip) is empty yields the literal `"Untitled"`. -/
theorem claim_C6 :
    (∀ nfkc : String → String, nfkc "" = "" → sanitize_name_alt nfkc none = "Untitled") ∧
    (∀ nfkc : String → String, nfkc "None" = "None" → sanitize_name_main nfkc none = "None") ∧
    (∀ (nfkc : String → String) (s : String), sanitizeCore nfkc s = [] →
      sanitize_name nfkc s = "Untitled") := by
  refine ⟨?_, ?_, ?_⟩
  · intro nfkc h
    unfold sanitize_name_alt orEmpty sanitize_name sanitizeCore
    rw [h]
    decide
  · intro nfkc h
    unfold sanitize_name_main pyStrRaw sanitize_name sanitizeCore
    rw [h]
    decide
  · intro nfkc s h
    unfold sanitize_name
    rw [if_pos h]

theorem claim_C6_witness :
    sanitize_name_alt id none = "Untitled" ∧ sanitize_name_main id none = "None" ∧
      sanitize_name id " . " = "Untitled" :=
  ⟨claim_C6.1 id rfl, claim_C6.2.1 id rfl, claim_C6.2.2 id " . " (by decide)⟩

/-- C7: `build_zip_from_names` skips a null name and an empty name without
writing an entry and without touching the registry; it writes exactly one
marker entry per surviving (truthy) name, so it cannot fail on bad names;
and the empty name list produces an archive with zero entries. -/
theorem claim_C7 :
    (∀ (ns : List (Option String)) (ex : List String),
      buildNamesGo (none :: ns) ex = buildNamesGo ns ex) ∧
    (∀ (ns : List (Option String)) (ex : List String),
      buildNamesGo (some "" :: ns) ex = buildNamesGo ns ex) ∧
    (∀ names : List (Option String),
      (build_zip_from_names names).length = (truthyNames names).length) ∧
    build_zip_from_names [] = [] := by
  refine ⟨fun ns ex => rfl, fun ns ex => by simp [buildNamesGo], ?_, rfl⟩
  intro names
  unfold build_zip_from_names
  rw [buildNamesGo_eq]
  rw [List.length_map, uniquifyGo_length]

/-- C8 counterexample: `"a\u0085."` (U+0085 is Python whitespace but NFKC
stable, not a space, and not matched by the forbidden pattern).  The first
sanitize pass strips only the trailing period, leaving a trailing U+0085,
which the second pass's `strip()` removes: sanitize is not idempotent. -/
theorem cex_C8 :
    sanitize_name id "a\u0085." = "a\u0085" ∧
    sanitize_name id (sanitize_name id "a\u0085.") = "a" ∧
    sanitize_name id (sanitize_name id "a\u0085.") ≠ sanitize_name id "a\u0085." := by
  decide

/-- C8 (amended): `sanitize(sanitize x) = sanitize x` holds whenever the
first pass's output is a fixed point of the normalization and does not end
in a (non-space) whitespace character; the fallacy in the original claim is
that the first pass's output can end in whitespace other than space. -/
theorem claim_C8 (nfkc : String → String) (x : String)
    (h1 : nfkc (sanitize_name nfkc x) = sanitize_name nfkc x)
    (h2 : lastIsPySpace (sanitize_name nfkc x) = false) :
    sanitize_name nfkc (sanitize_name nfkc x) = sanitize_name nfkc x := by
  apply sanitize_name_fixpoint nfkc (sanitize_name nfkc x) h1
  · exact sanitize_name_no_forbidden nfkc x
  · exact sanitize_name_head?_not nfkc x
  · intro c hc
    unfold lastIsPySpace at h2
    rw [hc] at h2
    simpa using h2
  · exact sanitize_name_getLast?_not nfkc x
  · exact sanitize_name_ne_empty nfkc x

theorem claim_C8_witness :
    sanitize_name id (sanitize_name id "a*b") = sanitize_name id "a*b" :=
  claim_C8 id "a*b" rfl (by decide)

/-- C9 counterexample: `build_zip_from_names` does not sanitize (its call
sites sanitize upstream, optionally), so on the name `"a*b"` the output
directory is `"a*b"`, while re-running `sanitize` then `makeUnique` over the
same input yields `"a-b"`: the round trip with sanitization fails for the
names-based builder. -/
theorem cex_C9 :
    build_zip_from_names [some "a*b"] = [("a*b/.keep", [])] ∧
    uniquifyList [sanitize_name id "a*b"] = ["a-b"] ∧
    ("a*b" : String) ≠ "a-b" := by
  decide

/-- C9 (amended): for the archive-based builder with sanitization enabled,
the output entry paths are exactly those rebuilt from re-running `sanitize`
followed by `makeUnique` (fresh registry) over the candidate stems in
order; for the names-based builder the directory names are reproduced by
re-running `makeUnique` alone over the surviving names (sanitization is
its callers' responsibility). -/
theorem claim_C9 :
    (∀ (nfkc : String → String) (entries : List ZEntry) (inc : Bool),
      (build_zip_from_filenames_zip entries inc true nfkc).map Prod.fst =
        pathBlocks inc (listCandidates entries) (specFolders nfkc entries)) ∧
    (∀ names : List (Option String),
      (build_zip_from_names names).map Prod.fst =
        (uniquifyList (truthyNames names)).map write_empty_folder) := by
  constructor
  · intro nfkc entries inc
    unfold build_zip_from_filenames_zip
    rw [buildZipGo_eq]
    rw [outBlocks_map_fst inc entries _ _
      (by rw [← specFolders_eq]; exact fun f hf => (by
        rw [specFolders_eq] at hf
        exact zip_folder_facts true nfkc entries [] f hf))]
    rw [← specFolders_eq]
  · intro names
    unfold build_zip_from_names
    rw [buildNamesGo_eq, List.map_map]
    rfl

/-- C10 counterexample: a source file named `.keep` gives a folder named
`.keep` whose content entry lands exactly on the folder's own marker path:
the output contains the path `.keep/.keep` twice. -/
theorem cex_C10 :
    build_zip_from_filenames_zip [⟨".keep", [104]⟩] true true id =
      [(".keep/.keep", []), (".keep/.keep", [104])] ∧
    ¬ ((build_zip_from_filenames_zip [⟨".keep", [104]⟩] true true id).map Prod.fst).Nodup := by
  decide

/-- C10 (amended): for every source archive, flag combination, and
normalization, the entry paths written by `build_zip_from_filenames_zip`
are pairwise distinct, provided no surviving candidate's basename is
`.keep` (a source file named `.keep` makes its content entry collide with
its own directory's marker). -/
theorem claim_C10 (nfkc : String → String) (entries : List ZEntry) (inc san : Bool)
    (hkeep : ∀ c ∈ listCandidates entries, c.basename ≠ ".keep") :
    ((build_zip_from_filenames_zip entries inc san nfkc).map Prod.fst).Nodup := by
  unfold build_zip_from_filenames_zip
  rw [buildZipGo_eq]
  rw [outBlocks_map_fst inc entries _ _ (fun f hf => zip_folder_facts san nfkc entries [] f hf)]
  apply pathBlocks_nodup
  · rw [uniquifyGo_length, List.length_map]
  · exact uniquifyGo_nodup _ []
  · exact zip_rows_RowH san nfkc entries [] hkeep
  · exact zip_rows_cross san nfkc entries []

theorem claim_C10_witness :
    ((build_zip_from_filenames_zip [⟨"a.txt", [1]⟩, ⟨"b.txt", [2]⟩] true true id).map
      Prod.fst).Nodup :=
  claim_C10 id [⟨"a.txt", [1]⟩, ⟨"b.txt", [2]⟩] true true (by decide)
